import Mathlib

/-!
# A verification development of the json-api client library

This file gives a shallow embedding, in Lean 4, of the core of the
`json-api` TypeScript client (the files `src/json-api.ts` and
`src/json-api-fetcher.ts`; where the repository contains several snapshots of
a module, the embedding follows the latest snapshot, whose line numbers the
section comments cite), together with theorems about the embedded code.

Modelling conventions:
* JavaScript objects appearing as string-keyed dictionaries are modelled by
  association lists (`aget`/`aset` mirror property read and property
  assignment / `Map.get` / `Map.set`: assignment replaces in place, new
  keys are appended, matching JS key-insertion order).
* The JS value `undefined` is modelled by `Option.none` for fields typed
  `x?:` on the wire, and by an explicit `PVal.undef` / `EVal.undef` for
  record properties that are *assigned* `undefined` (a JS object
  distinguishes a missing key from a key holding `undefined`; so does the
  embedding, by the key being absent from, or present in, the list).
* Records built by the decoder form a mutable object graph; the embedding
  makes the graph explicit as a heap (`Heap := List RecordObj`) addressed by
  allocation index, with relationship properties holding addresses.
  JS reference equality of two records is address equality.
* Exceptions are modelled by `Except JsErr`; `JsErr.error` is
  `throw new Error(msg)` and `JsErr.typeError` a runtime `TypeError`.
* `crypto.randomUUID()` is modelled by an oracle `genName : Nat → String`
  threaded as a counter over `createRecord` calls.
* Attribute maps come from parsed JSON, so attribute keys are assumed not to
  shadow the reserved record fields `id`/`lid`/`type` (a hostile payload
  could shadow them through the object spread in `createRecord`; no claim
  below depends on that corner and the embedding keeps the reserved fields
  structural).
-/

set_option autoImplicit false

namespace JsonApiClient

/-- Plain JSON values, as found in the `attributes` map of a wire resource. -/
inductive JVal where
  | str (s : String)
  | num (n : Int)
  | bool (b : Bool)
  | null
  | arr (elems : List JVal)
  | obj (fields : List (String × JVal))

/-- `JsonApiResourceIdentifier` from json-api.ts (lines 382-386):
`{ id?: string; lid?: string; type: string }`. -/
structure Rid where
  id : Option String := none
  lid : Option String := none
  type : String

/-- The `data` member of a `JsonApiRelationship` (json-api.ts lines 388-390):
`null | [] | JsonApiResourceIdentifier | JsonApiResourceIdentifier[]`,
plus the runtime possibility that the `data` key is absent altogether
(a links-only relationship object). `many []` is the wire value `[]`. -/
inductive RelData where
  | absent
  | null
  | one (rid : Rid)
  | many (rids : List Rid)

/-- JS truthiness of `reldoc.data`: `undefined` and `null` are falsy, any
object (including the empty array) is truthy. -/
def RelData.truthy : RelData → Bool
  | .absent => false
  | .null => false
  | .one _ => true
  | .many _ => true

/-- `JsonApiResource` from json-api.ts (lines 392-398). -/
structure Resource where
  id : Option String := none
  lid : Option String := none
  type : String
  attributes : List (String × JVal) := []
  relationships : Option (List (String × RelData)) := none

/-- `JsonApiError` from json-api.ts (lines 450-457); only the fields the
embedded code reads are kept. -/
structure JsonApiError where
  status : String := ""
  title : String
  detail : Option String := none

/-- The `data` member of a document: a single resource or an array. -/
inductive ResourceData where
  | one (r : Resource)
  | many (rs : List Resource)

/-- `JsonApiDocument` from json-api.ts (lines 438-444); `links` and `meta`
are never read by the embedded operations and are omitted. -/
structure JsonApiDocument where
  data : Option ResourceData := none
  errors : Option (List JsonApiError) := none
  included : Option (List Resource) := none

/-- `RelationshipType` from json-api.ts (lines 516-519) is a numeric TS enum;
it is kept as `Nat` so that the defensive "unknown relationship kind" branch
of `serialize` stays reachable, as it is in the source. -/
def RelationshipType.HasMany : Nat := 0

/-- See `RelationshipType.HasMany`. -/
def RelationshipType.BelongsTo : Nat := 1

/-- `Relationship` from json-api.ts (lines 524-529). -/
structure Relationship where
  type : String
  relationshipType : Nat

/-- `ModelDefinition` from json-api.ts (lines 490-499). -/
structure ModelDefinition where
  type : String
  relationships : Option (List (String × Relationship)) := none

/-- `JsonApiConfig` from json-api.ts (lines 501-514); the `endpoint` only
feeds the HTTP transport and is omitted from the embedding. -/
structure JsonApiConfig where
  modelDefinitions : List ModelDefinition
  kebabCase : Bool := false

/-- `JsonApiAtomicOperation` from json-api.ts (lines 459-463); the `ref`
member is never produced by the embedded operations and is omitted. -/
structure JsonApiAtomicOperation where
  op : String
  data : Option Resource := none

/-- `JsonApiAtomicResult` from json-api.ts (lines 465-468). -/
structure JsonApiAtomicResult where
  data : Resource

/-- `JsonApiAtomicDocument` from json-api.ts (lines 470-474).
`atomicOperations`/`atomicResults` stand for the wire keys
`atomic:operations`/`atomic:results`. -/
structure JsonApiAtomicDocument where
  atomicOperations : Option (List JsonApiAtomicOperation) := none
  atomicResults : Option (List JsonApiAtomicResult) := none
  errors : Option (List JsonApiError) := none

/-- Errors: `error` is `throw new Error(msg)`, `typeError` a runtime
`TypeError`, `httpError` the `HttpError` subclass of json-api-fetcher.ts
(lines 34-43), carrying the message, the HTTP status and the parsed error
document when the body parsed. -/
inductive JsErr where
  | error (msg : String)
  | typeError (msg : String)
  | httpError (message : String) (status : Nat) (document : Option JsonApiDocument)

/-! ## Association lists (JS objects / Maps as string-keyed dictionaries) -/

/-- Property read / `Map.get`: first binding for the key, if any. -/
def aget {κ α : Type} [BEq κ] (k : κ) : List (κ × α) → Option α
  | [] => none
  | (k', v) :: rest => if k' == k then some v else aget k rest

/-- Property assignment / `Map.set`: replace in place if the key is bound,
append otherwise (JS objects and Maps keep first-insertion key order). -/
def aset {κ α : Type} [BEq κ] (k : κ) (v : α) : List (κ × α) → List (κ × α)
  | [] => [(k, v)]
  | (k', v') :: rest => if k' == k then (k, v) :: rest else (k', v') :: aset k v rest

@[simp] theorem aget_nil {κ α : Type} [BEq κ] (k : κ) : aget (α := α) k [] = none := rfl

@[simp] theorem aget_cons {κ α : Type} [BEq κ] (k k' : κ) (v : α) (rest : List (κ × α)) :
    aget k ((k', v) :: rest) = if k' == k then some v else aget k rest := rfl

theorem aget_aset_self {κ α : Type} [BEq κ] [LawfulBEq κ] (k : κ) (v : α) (l : List (κ × α)) :
    aget k (aset k v l) = some v := by
  induction l with
  | nil => simp [aget, aset]
  | cons p rest ih =>
    obtain ⟨k', v'⟩ := p
    simp only [aset]
    cases hk : (k' == k) with
    | true => simp [aget]
    | false => simp [aget, hk, ih]

theorem aget_aset_ne {κ α : Type} [BEq κ] [LawfulBEq κ] (k j : κ) (v : α) (l : List (κ × α))
    (h : j ≠ k) : aget j (aset k v l) = aget j l := by
  have h' : ¬(k = j) := fun e => h e.symm
  induction l with
  | nil => simp [aget, aset, h']
  | cons p rest ih =>
    obtain ⟨k', v'⟩ := p
    simp only [aset]
    cases hk : (k' == k) with
    | true =>
      have : k' = k := eq_of_beq hk
      subst this
      simp [aget, h', beq_iff_eq]
    | false =>
      simp only [aget]
      cases hj : (k' == j) with
      | true => simp
      | false => simp [ih]

theorem aset_eq_append {κ α : Type} [BEq κ] (k : κ) (v : α) (l : List (κ × α))
    (h : aget k l = none) : aset k v l = l ++ [(k, v)] := by
  induction l with
  | nil => simp [aset]
  | cons p rest ih =>
    obtain ⟨k', v'⟩ := p
    simp only [aget] at h
    cases hk : (k' == k) with
    | true => rw [hk] at h; simp at h
    | false =>
      rw [hk] at h
      simp only [Bool.false_eq_true, if_false] at h
      simp only [aset, hk, Bool.false_eq_true, if_false, List.cons_append]
      rw [ih h]

theorem aget_append {κ α : Type} [BEq κ] (k : κ) (l1 l2 : List (κ × α)) :
    aget k (l1 ++ l2)
      = match aget k l1 with
        | some v => some v
        | none => aget k l2 := by
  induction l1 with
  | nil => simp [aget]
  | cons p rest ih =>
    obtain ⟨k', v'⟩ := p
    simp only [List.cons_append, aget]
    cases hk : (k' == k) with
    | true => simp
    | false => simp only [Bool.false_eq_true, if_false]; exact ih

/-- Membership of a binding for the key (JS `key in obj`). -/
def ahas {κ α : Type} [BEq κ] (k : κ) (l : List (κ × α)) : Bool :=
  (aget k l).isSome

/-! Reduction lemmas for `do`-notation over `Except`. -/

@[simp] theorem okBind {ε α β : Type} (a : α) (f : α → Except ε β) :
    (Except.ok a >>= f : Except ε β) = f a := rfl

@[simp] theorem errorBind {ε α β : Type} (e : ε) (f : α → Except ε β) :
    (Except.error e >>= f : Except ε β) = Except.error e := rfl

@[simp] theorem purePure {ε α : Type} (a : α) :
    (pure a : Except ε α) = Except.ok a := rfl

/-! ## Name normalization

`normalize` (json-api.ts lines 556-558) delegates to `camel` from
`src/util.ts`. -/

/-- Modelled from the spec: the body of `camel` lives in `src/util.ts`, a file
absent from the source tree (only its unit tests and its import sites are
present). Per the spec (§4.1), a segment boundary capitalizes the first code
point of the following segment Unicode-aware; the uppercase map here covers
ASCII and the Latin-1 letter block (so `ñ` ↦ `Ñ`, matching the unit tests,
which exercise only ASCII and Latin-1 initial letters). -/
def upperChar (c : Char) : Char :=
  if 'a' ≤ c ∧ c ≤ 'z' then Char.ofNat (c.toNat - 32)
  else if 0xE0 ≤ c.toNat ∧ c.toNat ≤ 0xFE ∧ c.toNat ≠ 0xF7 then Char.ofNat (c.toNat - 32)
  else c

/-- Modelled from the spec: capitalize the first code point of a segment. -/
def capitalizeSeg : List Char → List Char
  | [] => []
  | c :: cs => upperChar c :: cs

/-- Split a code-point list at every `'-'` (the list of hyphen-separated
segments; splitting the empty string gives one empty segment, as
`String.splitOn` does). -/
def splitSegs : List Char → List (List Char)
  | [] => [[]]
  | c :: cs =>
    let rest := splitSegs cs
    if c = '-' then [] :: rest
    else
      match rest with
      | seg :: segs => (c :: seg) :: segs
      | [] => [[c]]

/-- Modelled from the spec: `camel` from `src/util.ts` (file missing from the
tree): every hyphen-separated segment after the first is capitalized and the
segments are concatenated; a string without hyphens is returned unchanged. -/
def camel (s : String) : String :=
  match splitSegs s.data with
  | [] => ""
  | first :: rest => String.mk (first ++ (rest.map capitalizeSeg).flatten)

/-- `normalize` from json-api.ts (lines 556-558). -/
def normalize (cfg : JsonApiConfig) (str : String) : String :=
  if cfg.kebabCase then camel str else str

/-! ## Records

The decoder's records are JS objects holding the reserved fields plus one
property per attribute, with relationship properties assigned later (as
object references) by the relationship-population pass. -/

/-- A value held by a record property: a plain attribute value, a reference
to another record (belongs-to), an ordered list of references (has-many), or
an explicit assigned `undefined`. -/
inductive PVal where
  | attr (v : JVal)
  | ref (a : Nat)
  | refs (addrs : List Nat)
  | undef

def PVal.isUndef : PVal → Bool
  | .undef => true
  | _ => false

/-- A record object. `id` is `none` when the record's `id` property holds
`undefined` (which the `createRecord` spread can produce). The reserved
fields are kept structural; `props` holds the remaining own properties in
insertion order. -/
structure RecordObj where
  id : Option String
  lid : Option String := none
  type : String
  props : List (String × PVal) := []

/-- The `properties` argument of `createRecord`. The outer `Option` on
`id`/`lid` records whether the properties object has an *own* key of that
name at all; the inner one is its value (`none` = the key holds
`undefined`). The distinction matters: `properties.id ?? uuid` replaces a
missing *or* undefined id, but the later spread `{ id, type, ...properties }`
re-overwrites the id whenever the own key is present, even with `undefined`.
`rest` holds the remaining own entries; call sites never put reserved names
in it. -/
structure RecordProps where
  id : Option (Option String) := none
  lid : Option (Option String) := none
  rest : List (String × PVal) := []

/-- The `modelDefinitions` map built by `useJsonApi` (json-api.ts lines
548-554). -/
def modelDefinitionsMap (cfg : JsonApiConfig) : List (String × ModelDefinition) :=
  cfg.modelDefinitions.foldl (fun m d => aset d.type d m) []

/-- The `relationshipDefinitions` map built by `useJsonApi` (json-api.ts
lines 548-554): only model definitions that declare relationships get an
entry. -/
def relationshipDefinitions (cfg : JsonApiConfig) :
    List (String × List (String × Relationship)) :=
  cfg.modelDefinitions.foldl
    (fun m d => match d.relationships with
      | some rels => aset d.type rels m
      | none => m) []

/-- `createRecord` from json-api.ts (lines 589-606). `gen` stands for the
`crypto.randomUUID()` result of this call. -/
def createRecord (cfg : JsonApiConfig) (gen : String) (type : String)
    (properties : RecordProps) : Except JsErr RecordObj :=
  match aget type (modelDefinitionsMap cfg) with
  | none => .error (.error s!"Model type {type} not defined")
  | some _ =>
    -- const id = properties.id ?? crypto.randomUUID()
    let id := match properties.id with
      | some (some s) => s
      | _ => gen
    if cfg.kebabCase then
      -- `const normalizedRecord = { id, type }` followed by the copy loop:
      -- every own entry except `id` whose value is defined is stored under
      -- its normalized key
      let lid := match properties.lid with
        | some (some s) => some s
        | _ => none
      let props := properties.rest.foldl
        (fun acc p => if p.2.isUndef then acc else aset (normalize cfg p.1) p.2 acc) []
      .ok { id := some id, lid := lid, type := type, props := props }
    else
      -- `{ id, type, ...properties }`: the spread runs after the generated
      -- id, so an own `id` (or `lid`) key of `properties` overwrites the
      -- field, even when that key holds `undefined`
      let idSpread := match properties.id with
        | none => some id
        | some v => v
      let lidSpread := match properties.lid with
        | none => none
        | some v => v
      .ok { id := idSpread, lid := lidSpread, type := type, props := properties.rest }

/-- `resourceToRecord`, the inner helper of `resourcesToRecords` (json-api.ts
lines 609-614): `createRecord(resource.type, { id: resource.id,
...resource.attributes })`. A missing resource (the by-id cast of an absent
`data`) makes `resource.type` a property read on `undefined`. -/
def resourceToRecord (cfg : JsonApiConfig) (gen : String) (resource : Option Resource) :
    Except JsErr RecordObj :=
  match resource with
  | none => .error (.typeError "Cannot read properties of undefined (reading type)")
  | some r =>
      createRecord cfg gen r.type
        { id := some r.id, rest := r.attributes.map (fun p => (p.1, PVal.attr p.2)) }

/-! ## The graph builder (`resourcesToRecords`, json-api.ts lines 608-670)

The heap makes the JS object graph explicit: an address is an allocation
index, `heap[a]` the record object at that address, and the two identity
maps store addresses. Reference equality of records is address equality. -/

abbrev Heap := List RecordObj

/-- The inner map of the two-level index: id (possibly the `undefined` id of
a record) to address. -/
abbrev IdMap := List (Option String × Nat)

/-- The two-level index used by `setRecord`/`getRecord`: type first, then
id. -/
abbrev TypeMap := List (String × IdMap)

/-- `setRecord` from json-api.ts (lines 616-619): ensure the type bucket,
then bind the record's id to the record within it. -/
def setRecord (map : TypeMap) (rtype : String) (rid : Option String) (a : Nat) : TypeMap :=
  aset rtype (aset rid a ((aget rtype map).getD [])) map

/-- `getRecord` from json-api.ts (lines 621-625): reject identifiers without
an id, then look up type-first. (The source also inserts an empty bucket for
a missing type here; that changes no later lookup result and is omitted.) -/
def getRecord (map : TypeMap) (rtype : String) (rid : Option String) :
    Except JsErr (Option Nat) :=
  match rid with
  | none => .error (.error "Resource identifier must have an id")
  | some _ => .ok (aget rid ((aget rtype map).getD []))

/-- The `included` loop of `resourcesToRecords` (line 628): materialize each
included resource and index it, in order. -/
def buildIncluded (cfg : JsonApiConfig) (genName : Nat → String) :
    List Resource → Heap → TypeMap → Nat → Except JsErr (Heap × TypeMap × Nat)
  | [], heap, map, n => .ok (heap, map, n)
  | r :: rest, heap, map, n => do
    let obj ← resourceToRecord cfg (genName n) (some r)
    buildIncluded cfg genName rest (heap ++ [obj])
      (setRecord map obj.type obj.id heap.length) (n + 1)

/-- `const records = resources.map(resourceToRecord)` (line 630): materialize
the top-level resources, returning their addresses in order. -/
def allocRecords (cfg : JsonApiConfig) (genName : Nat → String) :
    List (Option Resource) → Heap → Nat → Except JsErr (Heap × List Nat × Nat)
  | [], heap, n => .ok (heap, [], n)
  | r :: rest, heap, n => do
    let obj ← resourceToRecord cfg (genName n) r
    let (h, addrs, n') ← allocRecords cfg genName rest (heap ++ [obj]) (n + 1)
    .ok (h, heap.length :: addrs, n')

/-- The `recordsMap` loop (lines 631-632): index the materialized top-level
records. -/
def buildRecordsMap (heap : Heap) : List Nat → TypeMap → TypeMap
  | [], map => map
  | a :: rest, map =>
    match heap[a]? with
    | some obj => buildRecordsMap heap rest (setRecord map obj.type obj.id a)
    | none => buildRecordsMap heap rest map

/-- `getRecord(includedMap, d) || getRecord(recordsMap, d)` (line 654). -/
def lookupRid (includedMap recordsMap : TypeMap) (d : Rid) : Except JsErr (Option Nat) := do
  let a? ← getRecord includedMap d.type d.id
  match a? with
  | some a => .ok (some a)
  | none => getRecord recordsMap d.type d.id

/-- The `.map` step over the filtered identifiers (line 654); `getRecord` can
throw, so the traversal is fallible. -/
def mapLookupRids (includedMap recordsMap : TypeMap) :
    List Rid → Except JsErr (List (Option Nat))
  | [] => .ok []
  | d :: rest => do
    let a? ← lookupRid includedMap recordsMap d
    let tail ← mapLookupRids includedMap recordsMap rest
    .ok (a? :: tail)

/-- Lines 652-655: filter the identifiers to the relationship's target type,
resolve each survivor (included pool first, then top-level pool), and drop
unresolved ones. A `none` element stands for the non-identifier value that
the belongs-to cast can wrap (the identifier *array* itself); its `type`
reads as `undefined`, so the type filter drops it. -/
def relatedRecordsOf (includedMap recordsMap : TypeMap) (rel : Relationship)
    (rids : List (Option Rid)) : Except JsErr (List Nat) := do
  let survivors := rids.filterMap
    (fun d? => match d? with
      | some d => if d.type == rel.type then some d else none
      | none => none)
  let found ← mapLookupRids includedMap recordsMap survivors
  .ok (found.filterMap id)

/-- The cast of `reldoc.data` driven by the relationship kind (lines
648-651): the has-many branch casts to an identifier array (`.filter` on a
non-array faults), the other branch wraps the value in a singleton array —
wrapping the identifier *array itself* (modelled `none`, its `type` reads as
`undefined`) when the linkage was plural. -/
def castRids (rel : Relationship) (reldoc : RelData) : Except JsErr (List (Option Rid)) :=
  if rel.relationshipType == RelationshipType.HasMany then
    match reldoc with
    | .many l => pure (l.map some)
    | .one _ =>
      -- the has-many cast of a singular linkage: `.filter` on a non-array
      throw (.typeError "reldoc.data.filter is not a function")
    | .absent => throw (.typeError "unreachable: falsy data")
    | .null => throw (.typeError "unreachable: falsy data")
  else
    match reldoc with
    | .one d => pure [some d]
    | .many _ => pure [none]
    | .absent => throw (.typeError "unreachable: falsy data")
    | .null => throw (.typeError "unreachable: falsy data")

/-- The value assigned by `setRelationship` (lines 656-660): the resolved
list for has-many, else its first element (`undefined` when empty). -/
def relValue (rel : Relationship) (relatedRecords : List Nat) : PVal :=
  if rel.relationshipType == RelationshipType.HasMany then PVal.refs relatedRecords
  else
    match relatedRecords with
    | b :: _ => PVal.ref b
    | [] => PVal.undef                   -- `relatedRecords[0]` is `undefined`

/-- The in-place property assignment on the record object at address `a`. -/
def storeRel (heap : Heap) (a : Nat) (nm : String) (value : PVal) : Heap :=
  match heap[a]? with
  | some obj => heap.set a { obj with props := aset nm value obj.props }
  | none => heap                         -- unreachable: `a` is a live address

/-- One iteration of the relationship loop of `populateRelationships`
(json-api.ts lines 643-661) for the record at address `a`. -/
def populateEntry (cfg : JsonApiConfig) (recordsMap includedMap : TypeMap)
    (heap : Heap) (a : Nat) (rels : List (String × Relationship))
    (name : String) (reldoc : RelData) : Except JsErr Heap :=
  match aget (normalize cfg name) rels with
  | none => .ok heap                     -- if (!rel) continue
  | some rel =>
    if reldoc.truthy = false then .ok heap  -- if (!reldoc.data) continue
    else
      castRids rel reldoc >>= fun rids =>
      relatedRecordsOf includedMap recordsMap rel rids >>= fun relatedRecords =>
      .ok (storeRel heap a (normalize cfg name) (relValue rel relatedRecords))

/-- The relationship loop of `populateRelationships` over all entries. -/
def populateEntries (cfg : JsonApiConfig) (recordsMap includedMap : TypeMap)
    (heap : Heap) (a : Nat) (rels : List (String × Relationship)) :
    List (String × RelData) → Except JsErr Heap
  | [] => .ok heap
  | (name, reldoc) :: rest => do
    let heap' ← populateEntry cfg recordsMap includedMap heap a rels name reldoc
    populateEntries cfg recordsMap includedMap heap' a rels rest

/-- The body of `populateRelationships` once the owning record's address is
known (lines 638-661). -/
def populateRelsAt (cfg : JsonApiConfig) (recordsMap includedMap : TypeMap)
    (heap : Heap) (a : Nat) (resource : Resource) : Except JsErr Heap :=
  match resource.relationships with
  | none => .ok heap                     -- if (!resource.relationships) return
  | some rentries =>
    match aget resource.type (relationshipDefinitions cfg) with
    | none => .ok heap                   -- if (!rels) return
    | some rels => populateEntries cfg recordsMap includedMap heap a rels rentries

/-- `populateRelationships` from json-api.ts (lines 634-662), acting on the
record for `resource` found top-level-first. -/
def populateRelationships (cfg : JsonApiConfig) (recordsMap includedMap : TypeMap)
    (heap : Heap) (resource : Resource) : Except JsErr Heap := do
  let a1? ← getRecord recordsMap resource.type resource.id
  let a? ← match a1? with
    | some a => pure (some a)
    | none => getRecord includedMap resource.type resource.id
  match a? with
  | none => .error (.error "Unexpected not found record")
  | some a => populateRelsAt cfg recordsMap includedMap heap a resource

/-- The population pass (lines 665-666) over a list of resources. An
`undefined` element would fault inside `getRecord` reading its `id`; the
pass is only reached when materialization has already succeeded on the same
list, so the case is unreachable. -/
def populateAll (cfg : JsonApiConfig) (recordsMap includedMap : TypeMap) :
    Heap → List (Option Resource) → Except JsErr Heap
  | heap, [] => .ok heap
  | heap, r? :: rest => do
    match r? with
    | none => throw (.typeError "Cannot read properties of undefined (reading id)")
    | some r => do
      let heap' ← populateRelationships cfg recordsMap includedMap heap r
      populateAll cfg recordsMap includedMap heap' rest

/-- `resourcesToRecords` from json-api.ts (lines 608-670): materialize the
included pool, materialize and index the top-level resources, then — only
when `included` is present — run the relationship-population pass over the
top-level resources and then the included ones. Returns the addresses of the
top-level records, in input order, together with the final heap. -/
def resourcesToRecords (cfg : JsonApiConfig) (genName : Nat → String)
    (resources : List (Option Resource)) (included : Option (List Resource)) :
    Except JsErr (List Nat × Heap) := do
  let (heap1, includedMap, n1) ←
    match included with
    | some rs => buildIncluded cfg genName rs [] [] 0
    | none => pure (([] : Heap), ([] : TypeMap), 0)
  let (heap2, addrs, _n2) ← allocRecords cfg genName resources heap1 n1
  let recordsMap := buildRecordsMap heap2 addrs []
  match included with
  | some rs => do
    let heap3 ← populateAll cfg recordsMap includedMap heap2 resources
    let heap4 ← populateAll cfg recordsMap includedMap heap3 (rs.map some)
    .ok (addrs, heap4)
  | none => .ok (addrs, heap2)

/-- `findRecord` from json-api.ts (lines 683-695), given the document the
transport returned. `doc.data as JsonApiResource` is a cast, not a check:
absent data flows in as `undefined`. (An *array* data under the by-id cast
would read `.type` as `undefined` and be rejected by `createRecord` as an
undefined model type; that precomputed outcome is returned directly.) -/
def findRecordDecode (cfg : JsonApiConfig) (genName : Nat → String) (id : String)
    (resource? : Option Resource) (included : Option (List Resource)) :
    Except JsErr (Nat × Heap) := do
  let (records, heap) ← resourcesToRecords cfg genName [resource?] included
  match records with
  | [] => .error (.error s!"Record with id {id} not found")  -- if (!record) throw
  | a :: _ => .ok (a, heap)

/-- See `findRecordDecode` for the decode tail shared by the data shapes. -/
def findRecord (cfg : JsonApiConfig) (genName : Nat → String) (id : String)
    (doc : JsonApiDocument) : Except JsErr (Nat × Heap) :=
  match doc.data with
  | some (.many _) => .error (.error "Model type undefined not defined")
  | some (.one r) => findRecordDecode cfg genName id (some r) doc.included
  | none => findRecordDecode cfg genName id none doc.included

/-! ## The encode side (`serializeRid`/`serialize`, json-api.ts lines 537-587)

Records handed to `serialize` are caller-built objects whose
relationship-valued properties hold other records. `serializeRid` reads only
the identity triple of a related record, so related records are modelled by
their `BaseEntity` part. -/

/-- `BaseEntity` from json-api.ts (lines 481-485). `id` is `none` when the
property holds `undefined` at runtime. -/
structure BaseEntity where
  id : Option String := none
  lid : Option String := none
  type : String

/-- JS truthiness of an `id`/`lid` field: `undefined` and `''` are falsy. -/
def strTruthy : Option String → Bool
  | some s => !(s == "")
  | none => false

/-- `serializeRid` from json-api.ts (lines 537-542): start from `{ type }`,
then prefer a truthy `lid` over a truthy `id`; with neither, the identifier
carries only the type. -/
def serializeRid (entity : BaseEntity) : Rid :=
  if strTruthy entity.lid then { type := entity.type, lid := entity.lid }
  else if strTruthy entity.id then { type := entity.type, id := entity.id }
  else { type := entity.type }

/-- A value held by an own property of a caller-built record: a plain
attribute value, an assigned `undefined`, a related record, or an array of
related records. -/
inductive EVal where
  | attr (v : JVal)
  | undef
  | entity (e : BaseEntity)
  | entities (es : List BaseEntity)

def EVal.isUndef : EVal → Bool
  | .undef => true
  | _ => false

/-- A caller-built record as passed to `serialize`: the reserved fields plus
the remaining own properties in insertion order (`props` holds no reserved
names; in a JS object the namespace is flat and the reserved keys cannot
recur). -/
structure EntityObj where
  id : Option String := none
  lid : Option String := none
  type : String
  props : List (String × EVal) := []

def EntityObj.toBaseEntity (r : EntityObj) : BaseEntity :=
  { id := r.id, lid := r.lid, type := r.type }

/-- `Object.entries(record)`: the reserved fields (a `lid` entry exists only
when the record has one) followed by the remaining own properties. -/
def entriesOf (r : EntityObj) : List (String × EVal) :=
  [("id", match r.id with | some s => EVal.attr (JVal.str s) | none => EVal.undef)]
    ++ (match r.lid with | some s => [("lid", EVal.attr (JVal.str s))] | none => [])
    ++ [("type", EVal.attr (JVal.str r.type))]
    ++ r.props

/-- One iteration of the `serialize` loop (json-api.ts lines 565-585) over
the accumulated `attributes` and `relationships` members. Two corners the
theorems below never rely on are modelled as faults rather than by
replicating the JS garbage they would produce: a non-array value under a
has-many definition does fault in the source (`.map` on a non-array), while
a non-record value in a relationship position under belongs-to, or a
record-valued property with no matching relationship definition, would be
passed through `serializeRid` / copied into `attributes` verbatim. -/
def serializeEntry (rels? : Option (List (String × Relationship)))
    (acc : List (String × JVal) × Option (List (String × RelData)))
    (key : String) (value : EVal) :
    Except JsErr (List (String × JVal) × Option (List (String × RelData))) :=
  if key == "id" || key == "lid" || key == "type" || value.isUndef then .ok acc
  else
    match rels? with
    | some rels =>
      match aget key rels with
      | some rel =>
        if rel.relationshipType == RelationshipType.HasMany then
          match value with
          | .entities es =>
            .ok (acc.1, some (aset key (RelData.many (es.map serializeRid)) (acc.2.getD [])))
          | _ => .error (.typeError "value.map is not a function")
        else if rel.relationshipType == RelationshipType.BelongsTo then
          match value with
          | .entity e =>
            .ok (acc.1, some (aset key (RelData.one (serializeRid e)) (acc.2.getD [])))
          | _ => .error (.typeError "relationship value is not a record")
        else .error (.error s!"Unknown relationship type for {key}")
      | none =>
        match value with
        | .attr v => .ok (aset key v acc.1, acc.2)
        | _ => .error (.typeError "record-valued property not declared as a relationship")
    | none =>
      match value with
      | .attr v => .ok (aset key v acc.1, acc.2)
      | _ => .error (.typeError "record-valued property not declared as a relationship")

/-- The `serialize` loop over the remaining entries. -/
def serializeEntries (rels? : Option (List (String × Relationship))) :
    List (String × EVal) → (List (String × JVal) × Option (List (String × RelData))) →
    Except JsErr (List (String × JVal) × Option (List (String × RelData)))
  | [], acc => .ok acc
  | (key, value) :: rest, acc => do
    let acc' ← serializeEntry rels? acc key value
    serializeEntries rels? rest acc'

/-- `serialize` from json-api.ts (lines 560-587): the resource starts as the
record's own identifier (`serializeRid(record) as JsonApiResource`), gets an
empty `attributes` always and an empty `relationships` exactly when the
record's type declares relationships, and the entry walk fills both. -/
def serialize (cfg : JsonApiConfig) (record : EntityObj) : Except JsErr Resource := do
  let relationships? := aget record.type (relationshipDefinitions cfg)
  let rid := serializeRid record.toBaseEntity
  let init : List (String × JVal) × Option (List (String × RelData)) :=
    ([], match relationships? with | some _ => some [] | none => none)
  let (attrs, rels) ← serializeEntries relationships? (entriesOf record) init
  .ok { id := rid.id, lid := rid.lid, type := rid.type,
        attributes := attrs, relationships := rels }

/-! ## The HTTP transport (json-api-fetcher.ts)

A `Response` models the settled `fetch` result: status information plus a
one-shot body. `BodyState` makes the one-shot nature of `response.json()`
explicit: a fetch body can be consumed once, and a second read rejects. -/

/-- A settled `fetch` response. `body` is the JSON value of the response
body (`none` when the body is not valid JSON), carrying every key the
source's casts read from it: the same JSON object is viewed as a
`JsonApiDocument` by `req`/`tryError` and as a `JsonApiAtomicDocument` by
`postAtomic`. -/
structure ResponseJson where
  data : Option ResourceData := none
  errors : Option (List JsonApiError) := none
  included : Option (List Resource) := none
  atomicOperations : Option (List JsonApiAtomicOperation) := none
  atomicResults : Option (List JsonApiAtomicResult) := none

/-- The response JSON viewed through the `as JsonApiDocument` cast. -/
def ResponseJson.asDocument (j : ResponseJson) : JsonApiDocument :=
  { data := j.data, errors := j.errors, included := j.included }

/-- The response JSON viewed through the `as JsonApiAtomicDocument` cast. -/
def ResponseJson.asAtomic (j : ResponseJson) : JsonApiAtomicDocument :=
  { atomicOperations := j.atomicOperations, atomicResults := j.atomicResults,
    errors := j.errors }

/-- See `ResponseJson`. -/
structure Response where
  ok : Bool
  status : Nat
  statusText : String := ""
  body : Option ResponseJson := none

/-- Whether the response body stream has been consumed. -/
structure BodyState where
  used : Bool := false

/-- `await response.json()`: consumes the one-shot body; a second read
rejects with a `TypeError`, an unparseable body with a `SyntaxError`-like
failure (both caught or propagated by the callers as the source does). -/
def readJson (resp : Response) (b : BodyState) : BodyState × Except JsErr ResponseJson :=
  if b.used then ({ used := true }, .error (.typeError "Body has already been read"))
  else ({ used := true },
    match resp.body with
    | some j => .ok j
    | none => .error (.typeError "Unexpected end of JSON input"))

/-- `tryError` from json-api-fetcher.ts (lines 45-59), as a body-state
transformer returning the value the async function settles with: `none`
(resolves) for an ok response, `some httpError` (rejects) otherwise. On a
non-ok response it consumes the body to parse the error document, ignoring
parse failures. -/
def tryErrorRun (resp : Response) (b : BodyState) : BodyState × Option JsErr :=
  if resp.ok then (b, none)
  else
    let (b2, parsed) := readJson resp b
    let errorDocument : Option JsonApiDocument :=
      match parsed with
      | .ok j => some j.asDocument
      | .error _ => none                 -- catch { /* ignore parse errors */ }
    let base := s!"HTTP error! status: {resp.status} {resp.statusText}"
    let message :=
      match errorDocument with
      | some d =>
        match d.errors with
        | some (e :: _) => base ++ s!" - {e.title}: " ++ e.detail.getD ""
        | _ => base
      | none => base
    (b2, some (.httpError message resp.status errorDocument))

/-- What `await tryError(response)` would deliver on a fresh response. -/
def tryError (resp : Response) : Option JsErr :=
  (tryErrorRun resp { used := false }).2

/-- `req` from json-api-fetcher.ts (lines 61-74). The source calls
`tryError(response)` WITHOUT `await` (line 71): the `HttpError` it rejects
with is dropped as an unhandled promise rejection; only the synchronous
prefix of `tryError` — which on a non-ok response starts consuming the
one-shot body — is observed by the rest of `req`, whose own
`response.json()` then faults on the already-consumed body. -/
def req (resp : Response) : Except JsErr JsonApiDocument :=
  let (b1, _unawaitedRejection) := tryErrorRun resp { used := false }
  match (readJson resp b1).2 with
  | .ok j => .ok j.asDocument
  | .error e => .error e

/-- The module-level `postAtomic` of json-api-fetcher.ts (lines 76-92): the
same un-awaited `tryError` call, then the 204 no-content check, then the
body read under the atomic-document cast. -/
def postAtomicReq (resp : Response) : Except JsErr (Option JsonApiAtomicDocument) :=
  let (b1, _unawaitedRejection) := tryErrorRun resp { used := false }
  if resp.status == 204 then .ok none
  else
    match (readJson resp b1).2 with
    | .ok j => .ok (some j.asAtomic)
    | .error e => .error e

/-- `JsonApiFetcherImpl.post` (json-api-fetcher.ts lines 141-152): wraps the
resource as `{ data: resource }` in the request body and delegates to `req`;
the transport's reply is the `resp` argument. -/
def post (_resource : Resource) (resp : Response) : Except JsErr JsonApiDocument :=
  req resp

/-- `JsonApiFetcherImpl.postAtomic` (json-api-fetcher.ts lines 153-158):
stringifies the atomic document into the request body and delegates to the
module-level `postAtomic`; the transport's reply is the `resp` argument. -/
def fetcherPostAtomic (_doc : JsonApiAtomicDocument) (resp : Response) :
    Except JsErr (Option JsonApiAtomicDocument) :=
  postAtomicReq resp

/-! ## Write operations (`saveRecord`/`saveAtomic`, json-api.ts 743-762) -/

/-- `saveRecord` from json-api.ts (lines 743-748): serialize, post, decode
`[doc.data]` with no `included` argument, return the first record. (As in
`findRecord`, array data under the single-resource cast is rejected by
`createRecord` as an undefined model type.) -/
def saveRecordDecode (cfg : JsonApiConfig) (genName : Nat → String)
    (resource? : Option Resource) : Except JsErr (Option Nat × Heap) := do
  let (records, heap) ← resourcesToRecords cfg genName [resource?] none
  .ok (records.head?, heap)

/-- See `saveRecordDecode` for the decode tail shared by the data shapes. -/
def saveRecord (cfg : JsonApiConfig) (genName : Nat → String) (record : EntityObj)
    (resp : Response) : Except JsErr (Option Nat × Heap) := do
  let resource ← serialize cfg record
  let doc ← post resource resp
  match doc.data with
  | some (.many _) => .error (.error "Model type undefined not defined")
  | some (.one r) => saveRecordDecode cfg genName (some r)
  | none => saveRecordDecode cfg genName none

/-- `AtomicOperation` from json-api.ts (lines 476-479): an op code plus the
record it applies to. -/
structure AtomicOperation where
  op : String
  data : EntityObj

/-- The `operations.map((op) => ({ op: op.op, data: serialize(op.data) }))`
step of `saveAtomic` (line 754). -/
def serializeOps (cfg : JsonApiConfig) :
    List AtomicOperation → Except JsErr (List JsonApiAtomicOperation)
  | [] => .ok []
  | op :: rest => do
    let r ← serialize cfg op.data
    let tail ← serializeOps cfg rest
    .ok ({ op := op.op, data := some r } :: tail)

/-- `saveAtomic` from json-api.ts (lines 750-762): serialize every
operation's record, wrap them as an `atomic:operations` document, post it
once; `undefined` from the transport (a 204 no-content batch reply) is
returned as-is (`if (!doc) return`), otherwise the `atomic:results`
resources — when the key is present — are decoded through
`resourcesToRecords` with no `included` argument. -/
def saveAtomic (cfg : JsonApiConfig) (genName : Nat → String)
    (operations : List AtomicOperation) (resp : Response) :
    Except JsErr (Option (JsonApiAtomicDocument × List Nat × Heap)) := do
  let atomicOperations ← serializeOps cfg operations
  let atomicDoc : JsonApiAtomicDocument := { atomicOperations := some atomicOperations }
  let doc? ← fetcherPostAtomic atomicDoc resp
  match doc? with
  | none => .ok none
  | some doc => do
    let (addrs, heap) ←
      match doc.atomicResults with
      | some results => resourcesToRecords cfg genName (results.map (fun r => some r.data)) none
      | none => pure (([] : List Nat), ([] : Heap))
    .ok (some (doc, addrs, heap))

/-! ## Concrete fixtures

A canonical configuration in the shape of the README example (people /
comments / articles), in plain and kebab-case variants, and a fixed
uuid oracle. -/

def cfgCanonical : JsonApiConfig :=
  { modelDefinitions :=
      [ { type := "people",
          relationships := some [("comments", ⟨"comments", 0⟩)] },
        { type := "comments",
          relationships := some [("author", ⟨"people", 1⟩)] },
        { type := "articles",
          relationships := some [("author", ⟨"people", 1⟩), ("comments", ⟨"comments", 0⟩)] } ] }

def cfgKebab : JsonApiConfig :=
  { modelDefinitions :=
      [ { type := "people" },
        { type := "articles",
          relationships := some [("myAuthor", ⟨"people", 1⟩)] } ],
    kebabCase := true }

def genCanonical : Nat → String := fun n => s!"uuid-{n}"

/-! ## C2 — cycle safety of the two-pass decode -/

/-- Person 9 whose `comments` linkage references comment 5. -/
def personA : Resource :=
  { id := some "9", type := "people",
    attributes := [("firstName", JVal.str "A")],
    relationships := some [("comments", RelData.many [{ id := some "5", type := "comments" }])] }

/-- Comment 5 (side-loaded) whose `author` linkage references person 9. -/
def commentC : Resource :=
  { id := some "5", type := "comments",
    attributes := [("body", JVal.str "hi")],
    relationships := some [("author", RelData.one { id := some "9", type := "people" })] }

/-- **C2**: decoding the cyclic document person 9 ↔ comment 5 terminates (the
decoder is a total function, so the equation below is a terminating
evaluation) and wires the cycle by aliasing: the returned record is the
object at address 1; its `comments` property is `[0]`, and the record at
address 0 has `author` = address 1 — i.e. `decodedA.comments[0].author` is
the very record object returned (reference equality of records is address
equality in the heap model), not a structural copy. Relationship population
runs only after both records exist at their addresses. -/
theorem C2_cycle_safe_aliasing :
    resourcesToRecords cfgCanonical genCanonical [some personA] (some [commentC])
      = .ok ([1],
        [ { id := some "5", type := "comments",
            props := [("body", PVal.attr (JVal.str "hi")), ("author", PVal.ref 1)] },
          { id := some "9", type := "people",
            props := [("firstName", PVal.attr (JVal.str "A")), ("comments", PVal.refs [0])] } ]) :=
  rfl

/-! ## C4 — findRecord on a document with absent data -/

/-- **C4**: a by-id fetch that succeeds at the transport level but returns a
document with no `data` does NOT raise the dedicated not-found condition:
`doc.data as JsonApiResource` flows `undefined` into `resourceToRecord`,
which faults reading `.type` before the `if (!record)` not-found check (that
check is unreachable: the mapped list always has one element when the map
succeeds). The code faults "some other way", which the claim rules out; the
not-found throw in the source shows the intent the code misses. -/
theorem C4_not_found_unreachable :
    findRecord cfgCanonical genCanonical "42" { data := none }
        = .error (.typeError "Cannot read properties of undefined (reading type)")
      ∧ findRecord cfgCanonical genCanonical "42" { data := none }
          ≠ .error (.error "Record with id 42 not found") := by
  refine ⟨rfl, ?_⟩
  intro h
  rw [show findRecord cfgCanonical genCanonical "42" { data := none }
      = .error (.typeError "Cannot read properties of undefined (reading type)") from rfl] at h
  exact absurd (Except.error.inj h) (by simp)

/-! ## C5 — HTTP errors and the un-awaited tryError -/

/-- A 500 reply whose body is a JSON:API error document. -/
def errResp : Response :=
  { ok := false, status := 500, statusText := "Internal Server Error",
    body := some { errors := some [{ status := "500", title := "Boom", detail := some "bad" }] } }

/-- **C5**: on a non-success response, `tryError` does construct the typed
`HttpError` carrying the status code and the first error's title/detail —
but `req` calls `tryError(response)` without `await` (json-api-fetcher.ts
line 71), so that rejection is dropped unhandled; `tryError`'s body read has
already consumed the one-shot body, and `req`'s own `response.json()` then
rejects with a body-reuse `TypeError`. The caller never sees the error body
as a successful document, but neither does it receive the `HttpError` the
claim promises. (The repository's own test expects
`fetchDocument` to reject with the `HttpError` message.) -/
theorem C5_http_error_dropped :
    tryError errResp
        = some (.httpError "HTTP error! status: 500 Internal Server Error - Boom: bad" 500
            (some { errors := some [{ status := "500", title := "Boom", detail := some "bad" }] }))
      ∧ req errResp = .error (.typeError "Body has already been read")
      ∧ postAtomicReq errResp = .error (.typeError "Body has already been read") :=
  ⟨rfl, rfl, rfl⟩

/-! ## C3 — links-only (absent data) versus null/empty data -/

/-- Article 1 whose `author` relationship entry has no `data` key at all
(links-only). -/
def artAuthorAbsent : Resource :=
  { id := some "1", type := "articles", attributes := [("title", JVal.str "T")],
    relationships := some [("author", RelData.absent)] }

/-- Article 1 whose `author` relationship entry has `data: null`. -/
def artAuthorNull : Resource :=
  { id := some "1", type := "articles", attributes := [("title", JVal.str "T")],
    relationships := some [("author", RelData.null)] }

/-- **C3 counterexample**: the claim demands that the links-only (absent
`data`) treatment "must not be conflated with a present `data: null`" — but
`populateRelationships` guards with `if (!reldoc.data) continue`, and
`null` is as falsy as `undefined`: the two documents below, identical except
that one has no `data` key and the other `data: null`, decode to exactly the
same output, with the `author` property unset in both. -/
theorem C3_null_conflated_counterexample :
    resourcesToRecords cfgCanonical genCanonical [some artAuthorAbsent] (some [])
        = resourcesToRecords cfgCanonical genCanonical [some artAuthorNull] (some [])
      ∧ resourcesToRecords cfgCanonical genCanonical [some artAuthorAbsent] (some [])
          = .ok ([0],
            [ { id := some "1", type := "articles",
                props := [("title", PVal.attr (JVal.str "T"))] } ]) :=
  ⟨rfl, rfl⟩

/-! ## C6 — the encode walk and the identifier of a related record -/

/-- A related person record with an empty-string `id` and no local id. -/
def personEmptyId : BaseEntity := { id := some "", type := "people" }

/-- **C6 counterexample**: the claim states each emitted identifier is
`{type, lid}` when the related record has a local id "and `{type, id}`
otherwise" — but `serializeRid` guards both branches with JS truthiness, so
a related record with no `lid` and the (falsy) id `""` yields an identifier
with *no* id member at all, not `{type, id: ""}`. -/
theorem C6_empty_id_counterexample :
    serialize cfgCanonical
        { id := some "1", type := "articles",
          props := [("author", EVal.entity personEmptyId)] }
      = .ok { id := some "1", type := "articles", attributes := [],
              relationships := some [("author", RelData.one { type := "people" })] }
    ∧ (({ type := "people" } : Rid)).id = none :=
  ⟨rfl, rfl⟩

/-! ## C7 — attribute-only round-trip -/

/-- **C7 counterexample**: an attribute-only record whose `id` is the empty
string (i.e. "the original had none", as for a not-yet-persisted record).
`serialize` drops the falsy id from the emitted resource, and the decode
side (`createRecord` via `resourceToRecord`) computes a generated id but
then overwrites it through the `{ id, type, ...properties }` spread, whose
own `id` key holds `undefined`: the round-tripped record's id is
`undefined` — not "a generated id" as the claim states. (The attributes
themselves do round-trip.) -/
theorem C7_roundtrip_counterexample :
    (serialize cfgCanonical
        { id := some "", type := "people",
          props := [("firstName", EVal.attr (JVal.str "J"))] }
      >>= fun res => resourceToRecord cfgCanonical "uuid-0" (some res))
      = .ok { id := none, type := "people",
              props := [("firstName", PVal.attr (JVal.str "J"))] } :=
  rfl

/-! ## C8 — kebab-case name normalization -/

/-- A kebab-cased wire document: article 1 with attribute `the-title` and
relationship `my-author` referencing side-loaded person 7. -/
def artKebab : Resource :=
  { id := some "1", type := "articles",
    attributes := [("the-title", JVal.str "T")],
    relationships := some [("my-author", RelData.one { id := some "7", type := "people" })] }

/-- Side-loaded person 7 with a kebab-cased attribute. -/
def personKebab : Resource :=
  { id := some "7", type := "people", attributes := [("first-name", JVal.str "J")] }

/-- **C8**: with `kebabCase` unset, `normalize` is the identity; with it set,
`normalize` is `camel`, which capitalizes and concatenates every
hyphen-separated segment after the first, Unicode-aware (`über-name` ↦
`überName`, and the Latin-1 initial of `first-ñame` is uppercased to
`firstÑame` as in the repository's unit tests). On decode this applies
uniformly: `createRecord` normalizes attribute keys, and the
relationship-population pass normalizes wire relationship names before the
definition lookup and stores the reference under the normalized name
(`my-author` ↦ `myAuthor` below). -/
theorem C8_name_normalization :
    (∀ s, normalize cfgCanonical s = s)
      ∧ (∀ s, normalize cfgKebab s = camel s)
      ∧ camel "first-name" = "firstName"
      ∧ camel "über-name" = "überName"
      ∧ camel "first-ñame" = "firstÑame"
      ∧ createRecord cfgKebab "g0" "people"
          { id := some (some "1"), rest := [("first-name", PVal.attr (JVal.str "J"))] }
          = .ok { id := some "1", type := "people",
                  props := [("firstName", PVal.attr (JVal.str "J"))] }
      ∧ resourcesToRecords cfgKebab genCanonical [some artKebab] (some [personKebab])
          = .ok ([1],
            [ { id := some "7", type := "people",
                props := [("firstName", PVal.attr (JVal.str "J"))] },
              { id := some "1", type := "articles",
                props := [("theTitle", PVal.attr (JVal.str "T")), ("myAuthor", PVal.ref 0)] } ]) :=
  ⟨fun _ => rfl, fun _ => rfl, rfl, rfl, rfl, rfl, rfl⟩

/-! ## C9 — saveAtomic outcomes -/

/-- **C9**: `saveAtomic` serializes every operation's record (the first
hypothesis of each conjunct), posts the `atomic:operations` document once,
and then: a 204 no-content reply comes back as `.ok none` — the absent
value, a valid non-error outcome; a reply carrying a result document has its
`atomic:results` resources decoded back into records in order (the decode
of the results list is exactly what is returned); and a failed batch
(non-success reply) propagates an error instead. -/
theorem C9_save_atomic_outcomes :
    (∀ cfg gen ops resp sops,
        serializeOps cfg ops = .ok sops → resp.ok = true → resp.status = 204 →
        saveAtomic cfg gen ops resp = .ok none)
      ∧ (∀ cfg gen ops resp sops j results addrs heap,
        serializeOps cfg ops = .ok sops → resp.ok = true → resp.status ≠ 204 →
        resp.body = some j → j.atomicResults = some results →
        resourcesToRecords cfg gen (results.map (fun r => some r.data)) none
          = .ok (addrs, heap) →
        saveAtomic cfg gen ops resp = .ok (some (j.asAtomic, addrs, heap)))
      ∧ (∀ cfg gen ops resp,
        resp.ok = false → resp.status ≠ 204 →
        ∃ e, saveAtomic cfg gen ops resp = .error e) := by
  refine ⟨?_, ?_, ?_⟩
  · intro cfg gen ops resp sops hs hok h204
    simp [saveAtomic, fetcherPostAtomic, postAtomicReq, tryErrorRun, readJson, bind,
      Except.bind, hs, hok, h204]
  · intro cfg gen ops resp sops j results addrs heap hs hok h204 hbody hres hdec
    simp [saveAtomic, fetcherPostAtomic, postAtomicReq, tryErrorRun, readJson, bind,
      Except.bind, ResponseJson.asAtomic, hs, hok, h204, hbody, hres, hdec]
  · intro cfg gen ops resp hok h204
    cases hs : serializeOps cfg ops with
    | error e => exact ⟨e, by simp [saveAtomic, bind, Except.bind, hs]⟩
    | ok sops =>
      exact ⟨.typeError "Body has already been read",
        by simp [saveAtomic, fetcherPostAtomic, postAtomicReq, tryErrorRun, readJson, bind,
          Except.bind, hs, hok, h204]⟩

/-- A created person resource, as an atomic result. -/
def atomicPersonResult : JsonApiAtomicResult :=
  ⟨{ id := some "10", type := "people", attributes := [("firstName", JVal.str "Alice")] }⟩

/-- A 200 reply whose body carries one atomic result. -/
def atomicResultsResp : Response :=
  { ok := true, status := 200, body := some { atomicResults := some [atomicPersonResult] } }

/-- **C9 witness**: the three conjuncts at concrete inputs (a 204 reply, a
result-document reply, a 500 reply). -/
theorem C9_save_atomic_outcomes_witness :
    saveAtomic cfgCanonical genCanonical [] { ok := true, status := 204 } = .ok none
      ∧ saveAtomic cfgCanonical genCanonical [] atomicResultsResp
          = .ok (some
            ( { atomicResults := some [atomicPersonResult] },
              [0],
              [ { id := some "10", type := "people",
                  props := [("firstName", PVal.attr (JVal.str "Alice"))] } ]))
      ∧ ∃ e, saveAtomic cfgCanonical genCanonical []
          { ok := false, status := 500, statusText := "Internal Server Error" } = .error e := by
  refine ⟨?_, ?_, ?_⟩
  · exact C9_save_atomic_outcomes.1 cfgCanonical genCanonical [] _ [] rfl rfl rfl
  · exact C9_save_atomic_outcomes.2.1 cfgCanonical genCanonical [] atomicResultsResp [] _ _ [0] _
      rfl rfl (by decide) rfl rfl rfl
  · exact C9_save_atomic_outcomes.2.2 cfgCanonical genCanonical [] _ rfl (by decide)

/-! ## C10 — no relationship population without an `included` argument -/

/-- Every property of every record in the heap is a plain attribute value:
no relationship reference, no assigned `undefined`. -/
def PropsAllAttr (heap : Heap) : Prop :=
  ∀ obj ∈ heap, ∀ p ∈ obj.props, ∃ v, p.2 = PVal.attr v

theorem mem_aset {κ α : Type} [BEq κ] (k : κ) (v : α) (l : List (κ × α)) :
    ∀ x ∈ aset k v l, x ∈ l ∨ x = (k, v) := by
  induction l with
  | nil =>
    intro x hx
    simp only [aset, List.mem_singleton] at hx
    exact Or.inr hx
  | cons p rest ih =>
    obtain ⟨k', v'⟩ := p
    intro x hx
    simp only [aset] at hx
    cases hk : (k' == k) with
    | true =>
      rw [hk] at hx
      simp only [reduceIte, List.mem_cons] at hx
      rcases hx with h | h
      · exact Or.inr h
      · exact Or.inl (List.mem_cons_of_mem _ h)
    | false =>
      rw [hk] at hx
      simp only [Bool.false_eq_true, if_false, List.mem_cons] at hx
      rcases hx with h | h
      · exact Or.inl (by simp [h])
      · rcases ih x h with h' | h'
        · exact Or.inl (List.mem_cons_of_mem _ h')
        · exact Or.inr h'

/-- Values stored by the kebab-case copy loop of `createRecord` all come
from the loop's input. -/
theorem foldl_aset_values {rest : List (String × PVal)} (cfg : JsonApiConfig)
    (P : PVal → Prop) (hrest : ∀ p ∈ rest, P p.2) :
    ∀ {init : List (String × PVal)}, (∀ p ∈ init, P p.2) →
    ∀ p ∈ rest.foldl
      (fun acc p => if p.2.isUndef then acc else aset (normalize cfg p.1) p.2 acc) init,
      P p.2 := by
  induction rest with
  | nil => intro init hinit p hp; exact hinit p hp
  | cons q rest ih =>
    intro init hinit p hp
    simp only [List.foldl_cons] at hp
    refine ih (fun r hr => hrest r (List.mem_cons_of_mem _ hr)) ?_ p hp
    intro r hr
    by_cases hu : q.2.isUndef
    · rw [if_pos hu] at hr; exact hinit r hr
    · rw [if_neg hu] at hr
      rcases mem_aset _ _ _ r hr with h | h
      · exact hinit r h
      · rw [h]; exact hrest q (List.mem_cons_self q rest)

/-- A record built by `createRecord` from attribute-only properties has
attribute-only properties. -/
theorem createRecord_all_attr {cfg : JsonApiConfig} {gen ty : String}
    {properties : RecordProps} {obj : RecordObj}
    (h : createRecord cfg gen ty properties = .ok obj)
    (hrest : ∀ p ∈ properties.rest, ∃ v, p.2 = PVal.attr v) :
    ∀ p ∈ obj.props, ∃ v, p.2 = PVal.attr v := by
  unfold createRecord at h
  cases hmd : aget ty (modelDefinitionsMap cfg) with
  | none => rw [hmd] at h; exact absurd h (by simp)
  | some md =>
    rw [hmd] at h
    cases hk : cfg.kebabCase with
    | true =>
      rw [hk] at h
      simp only [reduceIte, Except.ok.injEq] at h
      subst h
      intro p hp
      exact foldl_aset_values cfg (fun v => ∃ w, v = PVal.attr w) hrest (by simp) p hp
    | false =>
      rw [hk] at h
      simp only [Bool.false_eq_true, if_false, Except.ok.injEq] at h
      subst h
      exact hrest

/-- A record materialized from a wire resource has attribute-only
properties. -/
theorem resourceToRecord_all_attr {cfg : JsonApiConfig} {gen : String}
    {r? : Option Resource} {obj : RecordObj}
    (h : resourceToRecord cfg gen r? = .ok obj) :
    ∀ p ∈ obj.props, ∃ v, p.2 = PVal.attr v := by
  cases r? with
  | none => exact absurd h (by simp [resourceToRecord])
  | some r =>
    refine createRecord_all_attr h ?_
    intro p hp
    simp only [List.mem_map] at hp
    obtain ⟨q, _, hq⟩ := hp
    exact ⟨q.2, by rw [← hq]⟩

/-- Materialization preserves attribute-only heaps. -/
theorem allocRecords_all_attr {cfg : JsonApiConfig} {gen : Nat → String} :
    ∀ {rs : List (Option Resource)} {heap heap' : Heap} {addrs : List Nat} {n n' : Nat},
    allocRecords cfg gen rs heap n = .ok (heap', addrs, n') →
    PropsAllAttr heap → PropsAllAttr heap' := by
  intro rs
  induction rs with
  | nil =>
    intro heap heap' addrs n n' h hh
    simp only [allocRecords, Except.ok.injEq, Prod.mk.injEq] at h
    rw [← h.1]; exact hh
  | cons r rest ih =>
    intro heap heap' addrs n n' h hh
    simp only [allocRecords] at h
    cases hr : resourceToRecord cfg (gen n) r with
    | error e => rw [hr] at h; exact absurd h (by simp)
    | ok obj =>
      rw [hr] at h
      simp only [okBind] at h
      cases hrec : allocRecords cfg gen rest (heap ++ [obj]) (n + 1) with
      | error e => rw [hrec] at h; exact absurd h (by simp)
      | ok out =>
        rw [hrec] at h
        obtain ⟨h2, addrs2, n2⟩ := out
        simp only [okBind, Except.ok.injEq, Prod.mk.injEq] at h
        have hstep : PropsAllAttr (heap ++ [obj]) := by
          intro o ho
          rcases List.mem_append.1 ho with h' | h'
          · exact hh o h'
          · rcases List.mem_singleton.1 h' with rfl
            exact resourceToRecord_all_attr hr
        have := ih hrec hstep
        rw [← h.1]
        exact this

/-- **C10**: with no `included` argument the relationship-population pass of
`resourcesToRecords` does not run at all, so every record it returns carries
only id, type and plain attribute properties — even when the top-level
resources carry relationship linkage (nothing in the hypotheses restricts
their `relationships`). In particular the decode paths of `saveRecord` and
`saveAtomic`, which always call `resourcesToRecords` without `included`,
never produce populated relationships. -/
theorem C10_no_populate_without_included :
    (∀ cfg gen rs addrs heap,
        resourcesToRecords cfg gen rs none = .ok (addrs, heap) → PropsAllAttr heap)
      ∧ (∀ cfg gen record resp a heap,
        saveRecord cfg gen record resp = .ok (a, heap) → PropsAllAttr heap)
      ∧ (∀ cfg gen ops resp doc addrs heap,
        saveAtomic cfg gen ops resp = .ok (some (doc, addrs, heap)) → PropsAllAttr heap) := by
  have base : ∀ cfg gen rs addrs heap,
      resourcesToRecords cfg gen rs none = .ok (addrs, heap) → PropsAllAttr heap := by
    intro cfg gen rs addrs heap h
    simp only [resourcesToRecords, okBind, purePure] at h
    cases halloc : allocRecords cfg gen rs [] 0 with
    | error e => rw [halloc] at h; exact absurd h (by simp)
    | ok out =>
      rw [halloc] at h
      obtain ⟨h2, addrs2, n2⟩ := out
      simp only [okBind, Except.ok.injEq, Prod.mk.injEq] at h
      have := allocRecords_all_attr halloc (by intro o ho; simp at ho)
      rw [← h.2]
      exact this
  refine ⟨base, ?_, ?_⟩
  · intro cfg gen record resp a heap h
    simp only [saveRecord] at h
    cases hser : serialize cfg record with
    | error e => rw [hser] at h; exact absurd h (by simp)
    | ok res =>
      rw [hser] at h
      simp only [okBind] at h
      cases hpost : post res resp with
      | error e => rw [hpost] at h; exact absurd h (by simp)
      | ok doc =>
        rw [hpost] at h
        simp only [okBind] at h
        cases hdata : doc.data with
        | none =>
          rw [hdata] at h
          simp only [saveRecordDecode] at h
          cases hdec : resourcesToRecords cfg gen [none] none with
          | error e => rw [hdec] at h; exact absurd h (by simp)
          | ok out =>
            rw [hdec] at h
            obtain ⟨recs, hp⟩ := out
            simp only [okBind, Except.ok.injEq, Prod.mk.injEq] at h
            have := base cfg gen [none] recs hp hdec
            rw [← h.2]; exact this
        | some dv =>
          cases dv with
          | many rs => rw [hdata] at h; exact absurd h (by simp)
          | one r =>
            rw [hdata] at h
            simp only [saveRecordDecode] at h
            cases hdec : resourcesToRecords cfg gen [some r] none with
            | error e => rw [hdec] at h; exact absurd h (by simp)
            | ok out =>
              rw [hdec] at h
              obtain ⟨recs, hp⟩ := out
              simp only [okBind, Except.ok.injEq, Prod.mk.injEq] at h
              have := base cfg gen [some r] recs hp hdec
              rw [← h.2]; exact this
  · intro cfg gen ops resp doc addrs heap h
    simp only [saveAtomic] at h
    cases hs : serializeOps cfg ops with
    | error e => rw [hs] at h; exact absurd h (by simp)
    | ok sops =>
      rw [hs] at h
      simp only [okBind] at h
      cases hpa : fetcherPostAtomic { atomicOperations := some sops } resp with
      | error e => rw [hpa] at h; exact absurd h (by simp)
      | ok doc? =>
        rw [hpa] at h
        simp only [okBind] at h
        cases doc? with
        | none => exact absurd h (by simp)
        | some rdoc =>
          simp only [] at h
          cases hres : rdoc.atomicResults with
          | none =>
            rw [hres] at h
            simp only [purePure, okBind, Except.ok.injEq, Option.some.injEq,
              Prod.mk.injEq] at h
            rw [← h.2.2]
            intro o ho; simp at ho
          | some results =>
            rw [hres] at h
            simp only [] at h
            cases hdec : resourcesToRecords cfg gen (results.map (fun r => some r.data)) none with
            | error e => rw [hdec] at h; exact absurd h (by simp)
            | ok out =>
              rw [hdec] at h
              obtain ⟨recs, hp⟩ := out
              simp only [okBind, Except.ok.injEq, Option.some.injEq, Prod.mk.injEq] at h
              have := base cfg gen (results.map (fun r => some r.data)) recs hp hdec
              rw [← h.2.2]; exact this

/-- **C10 witness**: the first conjunct at a concrete input — a top-level
resource whose linkage references a sibling top-level resource decodes, with
no `included`, to attribute-only records. -/
theorem C10_no_populate_without_included_witness :
    resourcesToRecords cfgCanonical genCanonical
        [some personA, some commentC] none
      = .ok ([0, 1],
        [ { id := some "9", type := "people",
            props := [("firstName", PVal.attr (JVal.str "A"))] },
          { id := some "5", type := "comments",
            props := [("body", PVal.attr (JVal.str "hi"))] } ])
    ∧ PropsAllAttr
        [ { id := some "9", type := "people",
            props := [("firstName", PVal.attr (JVal.str "A"))] },
          { id := some "5", type := "comments",
            props := [("body", PVal.attr (JVal.str "hi"))] } ] :=
  ⟨rfl, C10_no_populate_without_included.1 cfgCanonical genCanonical
    [some personA, some commentC] [0, 1] _ rfl⟩

/-! ## A declarative characterization of `serialize`

`serializeAttributesSpec`/`serializeRelationshipsSpec` restate the encode
walk of §4.2 of the spec declaratively (a filter of the record's own
properties); the lemmas below prove the imperative walk of `serialize`
produces exactly these, for well-formed records. -/

/-- The reserved record keys skipped by the encode walk. -/
def reservedKey (k : String) : Bool :=
  k == "id" || k == "lid" || k == "type"

/-- Whether `k` names a declared relationship (`key in relationships`). -/
def relsHas (rels? : Option (List (String × Relationship))) (k : String) : Bool :=
  match rels? with
  | some rels => ahas k rels
  | none => false

/-- The attributes member the spec prescribes: every non-reserved,
defined-valued own property not naming a relationship, in order. -/
def serializeAttributesSpec (rels? : Option (List (String × Relationship)))
    (props : List (String × EVal)) : List (String × JVal) :=
  props.filterMap (fun p =>
    match p.2 with
    | .attr v => if reservedKey p.1 || relsHas rels? p.1 then none else some (p.1, v)
    | _ => none)

/-- The relationships member the spec prescribes: every non-reserved,
defined-valued own property naming a relationship becomes a linkage holding
only resource identifiers of the related records, in order. -/
def serializeRelationshipsSpec (rels : List (String × Relationship))
    (props : List (String × EVal)) : List (String × RelData) :=
  props.filterMap (fun p =>
    if reservedKey p.1 then none
    else
      match aget p.1 rels with
      | some _ =>
        match p.2 with
        | .entities es => some (p.1, RelData.many (es.map serializeRid))
        | .entity e => some (p.1, RelData.one (serializeRid e))
        | _ => none
      | none => none)

/-- Well-formedness of one property value against the relationship
definitions: a property naming a has-many (kind 0) definition holds a list
of records, one naming a belongs-to (kind 1) definition holds a record, any
other property holds a plain attribute value; `undefined` is allowed
anywhere (it is skipped). -/
def WfVal (rels : List (String × Relationship)) (p : String × EVal) : Prop :=
  match aget p.1 rels with
  | some rel =>
      (rel.relationshipType = 0 ∧ ∃ es, p.2 = EVal.entities es) ∨
      (rel.relationshipType = 1 ∧ ∃ e, p.2 = EVal.entity e) ∨ p.2 = EVal.undef
  | none => (∃ v, p.2 = EVal.attr v) ∨ p.2 = EVal.undef

/-- The walk ignores the reserved entries that `Object.entries` yields
before the plain properties. -/
theorem serializeEntries_entriesOf (rels? : Option (List (String × Relationship)))
    (r : EntityObj) (acc : List (String × JVal) × Option (List (String × RelData))) :
    serializeEntries rels? (entriesOf r) acc = serializeEntries rels? r.props acc := by
  obtain ⟨rid, rlid, rty, rprops⟩ := r
  cases rlid <;> rfl

/-- The walk over properties with no relationship definitions for the type:
everything lands in `attributes`. -/
theorem serializeEntries_spec_none (props : List (String × EVal)) :
    ∀ (accA : List (String × JVal)),
    (∀ p ∈ props, reservedKey p.1 = false) →
    (∀ p ∈ props, (∃ v, p.2 = EVal.attr v) ∨ p.2 = EVal.undef) →
    (∀ p ∈ props, aget p.1 accA = none) →
    (props.map Prod.fst).Nodup →
    serializeEntries none props (accA, none)
      = .ok (accA ++ serializeAttributesSpec none props, none) := by
  induction props with
  | nil =>
    intro accA _ _ _ _
    simp [serializeEntries, serializeAttributesSpec]
  | cons q rest ih =>
    intro accA hres hval hdisj hnd
    obtain ⟨k, v⟩ := q
    have hresk : reservedKey k = false := hres (k, v) (List.mem_cons_self _ _)
    have h3 : (k == "id") = false ∧ (k == "lid") = false ∧ (k == "type") = false := by
      have h0 := hresk
      unfold reservedKey at h0
      simp only [Bool.or_eq_false_iff] at h0
      exact ⟨h0.1.1, h0.1.2, h0.2⟩
    have hndrest : (rest.map Prod.fst).Nodup := (List.nodup_cons.1 hnd).2
    have hknotin : k ∉ rest.map Prod.fst := (List.nodup_cons.1 hnd).1
    have hdisjrest : ∀ accB : List (String × JVal), (∀ p ∈ (k, v) :: rest, aget p.1 accB = none) →
        ∀ w : JVal, ∀ p ∈ rest, aget p.1 (accB ++ [(k, w)]) = none := by
      intro accB hdj w p hp
      rw [aget_append, hdj p (List.mem_cons_of_mem _ hp)]
      have hne : p.1 ≠ k := fun he => hknotin (he ▸ List.mem_map_of_mem Prod.fst hp)
      have hkp : (k == p.1) = false := beq_eq_false_iff_ne.2 (fun hh => hne hh.symm)
      simp [aget, hkp]
    rcases hval (k, v) (List.mem_cons_self _ _) with ⟨w, hw⟩ | hw <;> simp only at hw <;> subst hw
    · -- attribute value
      have step : serializeEntry none (accA, none) k (EVal.attr w)
          = .ok (aset k w accA, none) := by
        simp [serializeEntry, h3.1, h3.2.1, h3.2.2, EVal.isUndef]
      rw [show serializeEntries none ((k, EVal.attr w) :: rest) (accA, none)
          = (serializeEntry none (accA, none) k (EVal.attr w) >>= fun acc' =>
              serializeEntries none rest acc') from rfl, step, okBind]
      rw [aset_eq_append _ _ _ (hdisj (k, EVal.attr w) (List.mem_cons_self _ _))]
      rw [ih (accA ++ [(k, w)])
        (fun p hp => hres p (List.mem_cons_of_mem _ hp))
        (fun p hp => hval p (List.mem_cons_of_mem _ hp))
        (hdisjrest accA hdisj w)
        hndrest]
      have hid : ¬(k = "id") := by simpa using h3.1
      have hlid : ¬(k = "lid") := by simpa using h3.2.1
      have hty : ¬(k = "type") := by simpa using h3.2.2
      simp [serializeAttributesSpec, reservedKey, relsHas, List.filterMap_cons, hid, hlid, hty]
    · -- undefined value: skipped
      have step : serializeEntry none (accA, none) k EVal.undef = .ok (accA, none) := by
        simp [serializeEntry, EVal.isUndef]
      rw [show serializeEntries none ((k, EVal.undef) :: rest) (accA, none)
          = (serializeEntry none (accA, none) k EVal.undef >>= fun acc' =>
              serializeEntries none rest acc') from rfl, step, okBind]
      rw [ih accA
        (fun p hp => hres p (List.mem_cons_of_mem _ hp))
        (fun p hp => hval p (List.mem_cons_of_mem _ hp))
        (fun p hp => hdisj p (List.mem_cons_of_mem _ hp))
        hndrest]
      simp [serializeAttributesSpec]

/-- The walk over properties when the type declares relationships:
relationship-named properties become linkages, the rest attributes. -/
theorem serializeEntries_spec_some (rels : List (String × Relationship))
    (props : List (String × EVal)) :
    ∀ (accA : List (String × JVal)) (accR : List (String × RelData)),
    (∀ p ∈ props, reservedKey p.1 = false) →
    (∀ p ∈ props, WfVal rels p) →
    (∀ p ∈ props, aget p.1 accA = none) →
    (∀ p ∈ props, aget p.1 accR = none) →
    (props.map Prod.fst).Nodup →
    serializeEntries (some rels) props (accA, some accR)
      = .ok (accA ++ serializeAttributesSpec (some rels) props,
             some (accR ++ serializeRelationshipsSpec rels props)) := by
  induction props with
  | nil =>
    intro accA accR _ _ _ _ _
    simp [serializeEntries, serializeAttributesSpec, serializeRelationshipsSpec]
  | cons q rest ih =>
    intro accA accR hres hval hdisjA hdisjR hnd
    obtain ⟨k, v⟩ := q
    have hresk : reservedKey k = false := hres (k, v) (List.mem_cons_self _ _)
    have h3 : (k == "id") = false ∧ (k == "lid") = false ∧ (k == "type") = false := by
      have h0 := hresk
      unfold reservedKey at h0
      simp only [Bool.or_eq_false_iff] at h0
      exact ⟨h0.1.1, h0.1.2, h0.2⟩
    have hid : ¬(k = "id") := by simpa using h3.1
    have hlid : ¬(k = "lid") := by simpa using h3.2.1
    have hty : ¬(k = "type") := by simpa using h3.2.2
    have hndrest : (rest.map Prod.fst).Nodup := (List.nodup_cons.1 hnd).2
    have hknotin : k ∉ rest.map Prod.fst := (List.nodup_cons.1 hnd).1
    have hfresh : ∀ {α : Type} (accB : List (String × α)) (w : α),
        (∀ p ∈ (k, v) :: rest, aget p.1 accB = none) →
        ∀ p ∈ rest, aget p.1 (accB ++ [(k, w)]) = none := by
      intro α accB w hdj p hp
      rw [aget_append, hdj p (List.mem_cons_of_mem _ hp)]
      have hne : p.1 ≠ k := fun he => hknotin (he ▸ List.mem_map_of_mem Prod.fst hp)
      have hkp : (k == p.1) = false := beq_eq_false_iff_ne.2 (fun hh => hne hh.symm)
      simp [aget, hkp]
    have hvalk := hval (k, v) (List.mem_cons_self _ _)
    unfold WfVal at hvalk
    simp only at hvalk
    have hrest_res := fun p hp => hres p (List.mem_cons_of_mem _ hp)
    have hrest_val := fun p hp => hval p (List.mem_cons_of_mem _ hp)
    cases hk : aget k rels with
    | none =>
      rw [hk] at hvalk
      rcases hvalk with ⟨w, hw⟩ | hw <;> subst hw
      · -- attribute value
        have step : serializeEntry (some rels) (accA, some accR) k (EVal.attr w)
            = .ok (aset k w accA, some accR) := by
          simp [serializeEntry, h3.1, h3.2.1, h3.2.2, EVal.isUndef, hk]
        rw [show serializeEntries (some rels) ((k, EVal.attr w) :: rest) (accA, some accR)
            = (serializeEntry (some rels) (accA, some accR) k (EVal.attr w) >>= fun acc' =>
                serializeEntries (some rels) rest acc') from rfl, step, okBind]
        rw [aset_eq_append _ _ _ (hdisjA (k, EVal.attr w) (List.mem_cons_self _ _))]
        rw [ih (accA ++ [(k, w)]) accR hrest_res hrest_val
          (hfresh accA w hdisjA)
          (fun p hp => hdisjR p (List.mem_cons_of_mem _ hp))
          hndrest]
        simp [serializeAttributesSpec, serializeRelationshipsSpec, reservedKey, relsHas,
          ahas, List.filterMap_cons, hid, hlid, hty, hk, hresk]
      · -- undefined value: skipped
        have step : serializeEntry (some rels) (accA, some accR) k EVal.undef
            = .ok (accA, some accR) := by
          simp [serializeEntry, EVal.isUndef]
        rw [show serializeEntries (some rels) ((k, EVal.undef) :: rest) (accA, some accR)
            = (serializeEntry (some rels) (accA, some accR) k EVal.undef >>= fun acc' =>
                serializeEntries (some rels) rest acc') from rfl, step, okBind]
        rw [ih accA accR hrest_res hrest_val
          (fun p hp => hdisjA p (List.mem_cons_of_mem _ hp))
          (fun p hp => hdisjR p (List.mem_cons_of_mem _ hp))
          hndrest]
        simp [serializeAttributesSpec, serializeRelationshipsSpec, List.filterMap_cons, hid,
          hlid, hty, hk, hresk]
    | some rel =>
      rw [hk] at hvalk
      rcases hvalk with ⟨hrt, es, hw⟩ | ⟨hrt, e, hw⟩ | hw <;> subst hw
      · -- has-many value
        have step : serializeEntry (some rels) (accA, some accR) k (EVal.entities es)
            = .ok (accA, some (aset k (RelData.many (es.map serializeRid)) accR)) := by
          simp [serializeEntry, h3.1, h3.2.1, h3.2.2, EVal.isUndef, hk, hrt,
            RelationshipType.HasMany]
        rw [show serializeEntries (some rels) ((k, EVal.entities es) :: rest) (accA, some accR)
            = (serializeEntry (some rels) (accA, some accR) k (EVal.entities es) >>= fun acc' =>
                serializeEntries (some rels) rest acc') from rfl, step, okBind]
        rw [aset_eq_append _ _ _ (hdisjR (k, EVal.entities es) (List.mem_cons_self _ _))]
        rw [ih accA (accR ++ [(k, RelData.many (es.map serializeRid))]) hrest_res hrest_val
          (fun p hp => hdisjA p (List.mem_cons_of_mem _ hp))
          (hfresh accR _ hdisjR)
          hndrest]
        simp [serializeAttributesSpec, serializeRelationshipsSpec, List.filterMap_cons, hid,
          hlid, hty, hk, hresk]
      · -- belongs-to value
        have step : serializeEntry (some rels) (accA, some accR) k (EVal.entity e)
            = .ok (accA, some (aset k (RelData.one (serializeRid e)) accR)) := by
          simp [serializeEntry, h3.1, h3.2.1, h3.2.2, EVal.isUndef, hk, hrt,
            RelationshipType.HasMany, RelationshipType.BelongsTo]
        rw [show serializeEntries (some rels) ((k, EVal.entity e) :: rest) (accA, some accR)
            = (serializeEntry (some rels) (accA, some accR) k (EVal.entity e) >>= fun acc' =>
                serializeEntries (some rels) rest acc') from rfl, step, okBind]
        rw [aset_eq_append _ _ _ (hdisjR (k, EVal.entity e) (List.mem_cons_self _ _))]
        rw [ih accA (accR ++ [(k, RelData.one (serializeRid e))]) hrest_res hrest_val
          (fun p hp => hdisjA p (List.mem_cons_of_mem _ hp))
          (hfresh accR _ hdisjR)
          hndrest]
        simp [serializeAttributesSpec, serializeRelationshipsSpec, List.filterMap_cons, hid,
          hlid, hty, hk, hresk]
      · -- undefined value: skipped
        have step : serializeEntry (some rels) (accA, some accR) k EVal.undef
            = .ok (accA, some accR) := by
          simp [serializeEntry, EVal.isUndef]
        rw [show serializeEntries (some rels) ((k, EVal.undef) :: rest) (accA, some accR)
            = (serializeEntry (some rels) (accA, some accR) k EVal.undef >>= fun acc' =>
                serializeEntries (some rels) rest acc') from rfl, step, okBind]
        rw [ih accA accR hrest_res hrest_val
          (fun p hp => hdisjA p (List.mem_cons_of_mem _ hp))
          (fun p hp => hdisjR p (List.mem_cons_of_mem _ hp))
          hndrest]
        simp [serializeAttributesSpec, serializeRelationshipsSpec, List.filterMap_cons, hid,
          hlid, hty, hk, hresk]

/-- Every branch of `serializeRid` carries over the entity's type. -/
theorem serializeRid_type (e : BaseEntity) : (serializeRid e).type = e.type := by
  unfold serializeRid
  split
  · rfl
  · split <;> rfl

/-- The imperative encode walk of `serialize` matches the declarative
description, for well-formed records. -/
theorem serialize_spec (cfg : JsonApiConfig) (record : EntityObj)
    (hres : ∀ p ∈ record.props, reservedKey p.1 = false)
    (hnd : (record.props.map Prod.fst).Nodup)
    (hval : ∀ rels, aget record.type (relationshipDefinitions cfg) = some rels →
        ∀ p ∈ record.props, WfVal rels p)
    (hattr : aget record.type (relationshipDefinitions cfg) = none →
        ∀ p ∈ record.props, (∃ v, p.2 = EVal.attr v) ∨ p.2 = EVal.undef) :
    serialize cfg record = .ok {
      id := (serializeRid record.toBaseEntity).id,
      lid := (serializeRid record.toBaseEntity).lid,
      type := record.type,
      attributes :=
        serializeAttributesSpec (aget record.type (relationshipDefinitions cfg)) record.props,
      relationships :=
        match aget record.type (relationshipDefinitions cfg) with
        | some rels => some (serializeRelationshipsSpec rels record.props)
        | none => none } := by
  cases hrels : aget record.type (relationshipDefinitions cfg) with
  | none =>
    simp only [serialize, hrels, serializeEntries_entriesOf]
    rw [serializeEntries_spec_none record.props [] hres (hattr hrels)
      (fun p _ => rfl) hnd]
    simp [serializeRid_type, EntityObj.toBaseEntity]
  | some rels =>
    simp only [serialize, hrels, serializeEntries_entriesOf]
    rw [serializeEntries_spec_some rels record.props [] [] hres (hval rels hrels)
      (fun p _ => rfl) (fun p _ => rfl) hnd]
    simp [serializeRid_type, EntityObj.toBaseEntity]

/-- An unknown relationship kind makes the walk throw at that entry, whatever
has been accumulated. -/
theorem serializeEntry_unknown_kind (rels : List (String × Relationship)) (k : String)
    (v : EVal) (rel : Relationship)
    (hres : reservedKey k = false) (hundef : v.isUndef = false)
    (hk : aget k rels = some rel) (h0 : rel.relationshipType ≠ 0)
    (h1 : rel.relationshipType ≠ 1) :
    ∀ acc, serializeEntry (some rels) acc k v
      = .error (.error s!"Unknown relationship type for {k}") := by
  intro acc
  have h3 : (k == "id") = false ∧ (k == "lid") = false ∧ (k == "type") = false := by
    have h' := hres
    unfold reservedKey at h'
    simp only [Bool.or_eq_false_iff] at h'
    exact ⟨h'.1.1, h'.1.2, h'.2⟩
  have hb0 : (rel.relationshipType == 0) = false := beq_eq_false_iff_ne.2 h0
  have hb1 : (rel.relationshipType == 1) = false := beq_eq_false_iff_ne.2 h1
  simp [serializeEntry, h3.1, h3.2.1, h3.2.2, hundef, hk,
    RelationshipType.HasMany, RelationshipType.BelongsTo, hb0, hb1]

/-- An entry that throws for every accumulator makes the whole walk throw. -/
theorem serializeEntries_error_absorb (rels? : Option (List (String × Relationship)))
    (props : List (String × EVal)) (k : String) (v : EVal)
    (hmem : (k, v) ∈ props)
    (hfail : ∀ acc, ∃ e, serializeEntry rels? acc k v = .error e) :
    ∀ acc, ∃ e, serializeEntries rels? props acc = .error e := by
  induction props with
  | nil => exact absurd hmem (by simp)
  | cons q rest ih =>
    intro acc
    rcases List.mem_cons.1 hmem with heq | hmem'
    · obtain ⟨e, he⟩ := hfail acc
      refine ⟨e, ?_⟩
      rw [← heq]
      rw [show serializeEntries rels? ((k, v) :: rest) acc
          = (serializeEntry rels? acc k v >>= fun acc' =>
              serializeEntries rels? rest acc') from rfl, he, errorBind]
    · obtain ⟨qk, qv⟩ := q
      cases hse : serializeEntry rels? acc qk qv with
      | error e =>
        refine ⟨e, ?_⟩
        rw [show serializeEntries rels? ((qk, qv) :: rest) acc
            = (serializeEntry rels? acc qk qv >>= fun acc' =>
                serializeEntries rels? rest acc') from rfl, hse, errorBind]
      | ok acc' =>
        obtain ⟨e, he⟩ := ih hmem' acc'
        refine ⟨e, ?_⟩
        rw [show serializeEntries rels? ((qk, qv) :: rest) acc
            = (serializeEntry rels? acc qk qv >>= fun acc' =>
                serializeEntries rels? rest acc') from rfl, hse, okBind, he]

/-- `serialize` throws on a record carrying a property whose relationship
definition has an unknown kind. -/
theorem serialize_unknown_kind (cfg : JsonApiConfig) (record : EntityObj)
    (rels : List (String × Relationship)) (k : String) (v : EVal) (rel : Relationship)
    (hrels : aget record.type (relationshipDefinitions cfg) = some rels)
    (hmem : (k, v) ∈ record.props)
    (hres : reservedKey k = false) (hundef : v.isUndef = false)
    (hk : aget k rels = some rel) (h0 : rel.relationshipType ≠ 0)
    (h1 : rel.relationshipType ≠ 1) :
    ∃ e, serialize cfg record = .error e := by
  have hmem' : (k, v) ∈ entriesOf record := by
    unfold entriesOf
    exact List.mem_append.2 (Or.inr hmem)
  obtain ⟨e, he⟩ := serializeEntries_error_absorb (some rels) (entriesOf record) k v hmem'
    (fun acc => ⟨_, serializeEntry_unknown_kind rels k v rel hres hundef hk h0 h1 acc⟩)
    ([], some [])
  refine ⟨e, ?_⟩
  simp only [serialize, hrels, he, errorBind]

/-- A not-yet-persisted related person carrying only a local id. -/
def personLid : BaseEntity := { lid := some "local-1", type := "people" }

/-- A configuration whose `articles.author` definition carries an unknown
relationship kind (the numeric enum leaves room for it). -/
def cfgBadKind : JsonApiConfig :=
  { modelDefinitions := [
      { type := "articles",
        relationships := some [("author", ⟨"people", 7⟩)] } ] }

/-- **C6 amended**: the encode walk over every own property skips the
reserved keys and `undefined`-valued properties; a property naming a
relationship definition becomes a linkage holding only resource identifiers
of the related record(s) (never their attributes — the linkage carries
`serializeRid` images only); every other property becomes a plain attribute;
a relationship definition whose kind is neither has-many nor belongs-to is
an error. Each identifier is `{type, lid}` when the related record has a
truthy local id, `{type, id}` when it has a truthy id, and a bare `{type}`
when both are falsy (the amendment forced by the counterexample: a falsy id
is omitted rather than emitted). -/
theorem C6_serialize_amended :
    (∀ cfg record,
      (∀ p ∈ record.props, reservedKey p.1 = false) →
      ((record.props.map Prod.fst).Nodup) →
      (∀ rels, aget record.type (relationshipDefinitions cfg) = some rels →
        ∀ p ∈ record.props, WfVal rels p) →
      (aget record.type (relationshipDefinitions cfg) = none →
        ∀ p ∈ record.props, (∃ v, p.2 = EVal.attr v) ∨ p.2 = EVal.undef) →
      serialize cfg record = .ok {
        id := (serializeRid record.toBaseEntity).id,
        lid := (serializeRid record.toBaseEntity).lid,
        type := record.type,
        attributes :=
          serializeAttributesSpec (aget record.type (relationshipDefinitions cfg)) record.props,
        relationships :=
          match aget record.type (relationshipDefinitions cfg) with
          | some rels => some (serializeRelationshipsSpec rels record.props)
          | none => none })
      ∧ (∀ e, strTruthy e.lid = true → serializeRid e = { type := e.type, lid := e.lid })
      ∧ (∀ e, strTruthy e.lid = false → strTruthy e.id = true →
          serializeRid e = { type := e.type, id := e.id })
      ∧ (∀ e, strTruthy e.lid = false → strTruthy e.id = false →
          serializeRid e = { type := e.type })
      ∧ (∀ cfg record rels k v rel,
          aget record.type (relationshipDefinitions cfg) = some rels →
          (k, v) ∈ record.props →
          reservedKey k = false → v.isUndef = false →
          aget k rels = some rel →
          rel.relationshipType ≠ 0 → rel.relationshipType ≠ 1 →
          ∃ e, serialize cfg record = .error e) := by
  refine ⟨serialize_spec, ?_, ?_, ?_, ?_⟩
  · intro e h; simp [serializeRid, h]
  · intro e hl hi; simp [serializeRid, hl, hi]
  · intro e hl hi; simp [serializeRid, hl, hi]
  · intro cfg record rels k v rel hrels hmem hres hundef hk h0 h1
    exact serialize_unknown_kind cfg record rels k v rel hrels hmem hres hundef hk h0 h1

/-- **C6 amended witness**: the walk at a concrete record — a skipped
`undefined` property, an attribute, a belongs-to related record carrying a
local id (the identifier is `{type, lid}`), and an empty has-many — and the
unknown-kind error at a concrete bad definition. -/
theorem C6_serialize_amended_witness :
    serialize cfgCanonical
        { id := some "1", type := "articles",
          props := [("title", EVal.attr (JVal.str "X")),
                    ("note", EVal.undef),
                    ("author", EVal.entity personLid),
                    ("comments", EVal.entities [])] }
      = .ok { id := some "1", type := "articles",
              attributes := [("title", JVal.str "X")],
              relationships := some
                [("author", RelData.one { type := "people", lid := some "local-1" }),
                 ("comments", RelData.many [])] }
    ∧ ∃ e, serialize cfgBadKind
        { id := some "1", type := "articles",
          props := [("author", EVal.entity personLid)] }
      = .error e := by
  constructor
  · have h := C6_serialize_amended.1 cfgCanonical
      { id := some "1", type := "articles",
        props := [("title", EVal.attr (JVal.str "X")),
                  ("note", EVal.undef),
                  ("author", EVal.entity personLid),
                  ("comments", EVal.entities [])] }
      (by intro p hp
          simp only [List.mem_cons, List.not_mem_nil, or_false] at hp
          rcases hp with rfl | rfl | rfl | rfl <;> rfl)
      (by decide)
      (by intro rels hrels p hp
          have hr : rels = [("author", (⟨"people", 1⟩ : Relationship)),
              ("comments", (⟨"comments", 0⟩ : Relationship))] := by
            have : aget "articles" (relationshipDefinitions cfgCanonical)
                = some [("author", (⟨"people", 1⟩ : Relationship)),
                        ("comments", (⟨"comments", 0⟩ : Relationship))] := rfl
            rw [this] at hrels
            exact (Option.some.inj hrels).symm
          subst hr
          simp only [List.mem_cons, List.not_mem_nil, or_false] at hp
          rcases hp with rfl | rfl | rfl | rfl
          · exact Or.inl ⟨JVal.str "X", rfl⟩
          · exact Or.inr rfl
          · exact Or.inr (Or.inl ⟨rfl, personLid, rfl⟩)
          · exact Or.inl ⟨rfl, [], rfl⟩)
      (by intro hnone
          have : aget "articles" (relationshipDefinitions cfgCanonical)
              = some [("author", (⟨"people", 1⟩ : Relationship)),
                      ("comments", (⟨"comments", 0⟩ : Relationship))] := rfl
          rw [this] at hnone
          exact Option.noConfusion hnone)
    exact h
  · exact C6_serialize_amended.2.2.2.2 cfgBadKind
      { id := some "1", type := "articles",
        props := [("author", EVal.entity personLid)] }
      [("author", ⟨"people", 7⟩)] "author" (EVal.entity personLid) ⟨"people", 7⟩
      rfl (List.mem_cons_self _ _) rfl rfl rfl (by decide) (by decide)

/-- On attribute-only properties (no key naming a relationship definition,
none reserved), the prescribed attributes member is the attribute list
itself. -/
theorem attrsSpec_attrs_only (rels? : Option (List (String × Relationship)))
    (attrs : List (String × JVal))
    (hres : ∀ p ∈ attrs, reservedKey p.1 = false)
    (hrel : ∀ p ∈ attrs, relsHas rels? p.1 = false) :
    serializeAttributesSpec rels? (attrs.map (fun p => (p.1, EVal.attr p.2))) = attrs := by
  induction attrs with
  | nil => simp [serializeAttributesSpec]
  | cons q rest ih =>
    obtain ⟨k, v⟩ := q
    have h1 := hres (k, v) (List.mem_cons_self _ _)
    have h2 := hrel (k, v) (List.mem_cons_self _ _)
    simp only [List.map_cons, serializeAttributesSpec, List.filterMap_cons] at ih ⊢
    simp only at h1 h2
    rw [h1, h2]
    simp only [Bool.or_self, Bool.false_eq_true, if_false]
    rw [ih (fun p hp => hres p (List.mem_cons_of_mem _ hp))
      (fun p hp => hrel p (List.mem_cons_of_mem _ hp))]

/-- The kebab-case copy loop of `createRecord` is the identity on
already-normalized, defined-valued, duplicate-free properties. -/
theorem foldl_aset_fresh (cfg : JsonApiConfig) :
    ∀ (rest : List (String × PVal)) (init : List (String × PVal)),
    (∀ p ∈ rest, p.2.isUndef = false ∧ normalize cfg p.1 = p.1) →
    ((rest.map Prod.fst).Nodup) →
    (∀ p ∈ rest, aget p.1 init = none) →
    rest.foldl (fun acc p => if p.2.isUndef then acc else aset (normalize cfg p.1) p.2 acc) init
      = init ++ rest := by
  intro rest
  induction rest with
  | nil => intro init _ _ _; simp
  | cons q rest ih =>
    intro init hwf hnd hdisj
    obtain ⟨k, v⟩ := q
    obtain ⟨hu, hn⟩ := hwf (k, v) (List.mem_cons_self _ _)
    simp only at hu hn
    have hknotin : k ∉ rest.map Prod.fst := (List.nodup_cons.1 hnd).1
    simp only [List.foldl_cons, hu, Bool.false_eq_true, if_false, hn]
    rw [aset_eq_append _ _ _ (hdisj (k, v) (List.mem_cons_self _ _))]
    rw [ih (init ++ [(k, v)])
      (fun p hp => hwf p (List.mem_cons_of_mem _ hp))
      ((List.nodup_cons.1 hnd).2)
      (fun p hp => by
        rw [aget_append, hdisj p (List.mem_cons_of_mem _ hp)]
        have hne : p.1 ≠ k := fun he => hknotin (he ▸ List.mem_map_of_mem Prod.fst hp)
        have hkp : (k == p.1) = false := beq_eq_false_iff_ne.2 (fun hh => hne hh.symm)
        simp [aget, hkp])]
    simp

/-- `createRecord` on properties carrying a present, defined id: the record
keeps that id, in both configuration modes. -/
theorem createRecord_spec (cfg : JsonApiConfig) (gen ty idv : String)
    (rest : List (String × PVal))
    (hmd : (aget ty (modelDefinitionsMap cfg)).isSome = true)
    (hwf : ∀ p ∈ rest, p.2.isUndef = false ∧ normalize cfg p.1 = p.1)
    (hnd : (rest.map Prod.fst).Nodup) :
    createRecord cfg gen ty { id := some (some idv), rest := rest }
      = .ok { id := some idv, lid := none, type := ty, props := rest } := by
  obtain ⟨md, hmd'⟩ := Option.isSome_iff_exists.1 hmd
  unfold createRecord
  rw [hmd']
  cases hk : cfg.kebabCase with
  | true =>
    simp only [reduceIte]
    rw [foldl_aset_fresh cfg rest [] hwf hnd (fun p _ => rfl)]
    simp
  | false =>
    simp only [Bool.false_eq_true, if_false]

/-- `createRecord` on properties whose own `id` key holds `undefined`, in the
default (non-kebab) configuration: the `{ id, type, ...properties }` spread
overwrites the generated id with `undefined`. -/
theorem createRecord_spread_undefined_id (cfg : JsonApiConfig) (gen ty : String)
    (rest : List (String × PVal))
    (hmd : (aget ty (modelDefinitionsMap cfg)).isSome = true)
    (hkb : cfg.kebabCase = false) :
    createRecord cfg gen ty { id := some none, rest := rest }
      = .ok { id := none, lid := none, type := ty, props := rest } := by
  obtain ⟨md, hmd'⟩ := Option.isSome_iff_exists.1 hmd
  unfold createRecord
  rw [hmd', hkb]
  simp only [Bool.false_eq_true, if_false]

/-- **C7 amended**: encode-then-decode (serialize, then `resourceToRecord`,
i.e. `createRecord` on the resource's type, id and attributes) is the
identity on records of a defined model type whose non-reserved own
properties are plain attribute values — keys not reserved, not naming a
relationship definition, fixed under the configured normalization — provided
the record has a truthy (non-empty) id and no local id. The claim's "modulo
a generated id when the original had none" clause is replaced, as the
counterexample forces: under the default configuration an original with a
falsy id round-trips to a record whose id property is `undefined` (the
generated id is overwritten by the spread), attributes still intact. -/
theorem C7_roundtrip_amended :
    (∀ cfg gen ty idv (attrs : List (String × JVal)),
      (aget ty (modelDefinitionsMap cfg)).isSome = true →
      idv ≠ "" →
      ((attrs.map Prod.fst).Nodup) →
      (∀ p ∈ attrs, reservedKey p.1 = false) →
      (∀ p ∈ attrs, normalize cfg p.1 = p.1) →
      (∀ p ∈ attrs, relsHas (aget ty (relationshipDefinitions cfg)) p.1 = false) →
      (serialize cfg
          { id := some idv, type := ty,
            props := attrs.map (fun p => (p.1, EVal.attr p.2)) }
        >>= fun res => resourceToRecord cfg gen (some res))
        = .ok
          { id := some idv, lid := none, type := ty,
            props := attrs.map (fun p => (p.1, PVal.attr p.2)) })
      ∧ (∀ cfg gen ty (attrs : List (String × JVal)),
      cfg.kebabCase = false →
      (aget ty (modelDefinitionsMap cfg)).isSome = true →
      ((attrs.map Prod.fst).Nodup) →
      (∀ p ∈ attrs, reservedKey p.1 = false) →
      (∀ p ∈ attrs, relsHas (aget ty (relationshipDefinitions cfg)) p.1 = false) →
      (serialize cfg
          { id := some "", type := ty,
            props := attrs.map (fun p => (p.1, EVal.attr p.2)) }
        >>= fun res => resourceToRecord cfg gen (some res))
        = .ok
          { id := none, lid := none, type := ty,
            props := attrs.map (fun p => (p.1, PVal.attr p.2)) }) := by
  have hserial : ∀ cfg (ty : String) (ido : Option String) (attrs : List (String × JVal)),
      ((attrs.map Prod.fst).Nodup) →
      (∀ p ∈ attrs, reservedKey p.1 = false) →
      (∀ p ∈ attrs, relsHas (aget ty (relationshipDefinitions cfg)) p.1 = false) →
      serialize cfg
          { id := ido, type := ty,
            props := attrs.map (fun p => (p.1, EVal.attr p.2)) }
        = .ok
          { id := (serializeRid { id := ido, type := ty }).id,
            lid := (serializeRid { id := ido, type := ty }).lid,
            type := ty,
            attributes := attrs,
            relationships :=
              match aget ty (relationshipDefinitions cfg) with
              | some rels => some (serializeRelationshipsSpec rels
                  (attrs.map (fun p => (p.1, EVal.attr p.2))))
              | none => none } := by
    intro cfg ty ido attrs hnd hres hrel
    have hagetnone : ∀ rels, aget ty (relationshipDefinitions cfg) = some rels →
        ∀ q ∈ attrs, aget q.1 rels = none := by
      intro rels hrels q hq
      have h := hrel q hq
      rw [hrels] at h
      cases hag : aget q.1 rels with
      | none => rfl
      | some r =>
        have h2 : (aget q.1 rels).isSome = false := h
        rw [hag] at h2
        simp at h2
    have h := serialize_spec cfg
      { id := ido, type := ty, props := attrs.map (fun p => (p.1, EVal.attr p.2)) }
      (by intro p hp
          rcases List.mem_map.1 hp with ⟨q, hq, rfl⟩
          exact hres q hq)
      (by simpa using hnd)
      (by intro rels hrels p hp
          rcases List.mem_map.1 hp with ⟨q, hq, rfl⟩
          unfold WfVal
          rw [hagetnone rels hrels q hq]
          exact Or.inl ⟨q.2, rfl⟩)
      (by intro _ p hp
          rcases List.mem_map.1 hp with ⟨q, hq, rfl⟩
          exact Or.inl ⟨q.2, rfl⟩)
    rw [attrsSpec_attrs_only (aget ty (relationshipDefinitions cfg)) attrs hres hrel] at h
    exact h
  constructor
  · intro cfg gen ty idv attrs hmd hid hnd hres hnorm hrel
    rw [hserial cfg ty (some idv) attrs hnd hres hrel, okBind]
    have hrid : serializeRid { id := some idv, type := ty } = { type := ty, id := some idv } := by
      have : (idv == "") = false := beq_eq_false_iff_ne.2 hid
      simp [serializeRid, strTruthy, this]
    rw [hrid]
    simp only [resourceToRecord]
    exact createRecord_spec cfg gen ty idv (attrs.map (fun p => (p.1, PVal.attr p.2))) hmd
      (by intro p hp
          rcases List.mem_map.1 hp with ⟨q, hq, rfl⟩
          exact ⟨rfl, hnorm q hq⟩)
      (by simpa using hnd)
  · intro cfg gen ty attrs hkb hmd hnd hres hrel
    rw [hserial cfg ty (some "") attrs hnd hres hrel, okBind]
    have hrid : serializeRid { id := some "", type := ty } = { type := ty } := by
      simp [serializeRid, strTruthy]
    rw [hrid]
    simp only [resourceToRecord]
    exact createRecord_spread_undefined_id cfg gen ty
      (attrs.map (fun p => (p.1, PVal.attr p.2))) hmd hkb

/-- **C7 amended witness**: both conjuncts at concrete inputs — the
attribute-only person round-trips identically with its non-empty id; the
same record with the empty id decodes to an `undefined` id. -/
theorem C7_roundtrip_amended_witness :
    (serialize cfgCanonical
        { id := some "3", type := "people",
          props := [("firstName", EVal.attr (JVal.str "J"))] }
      >>= fun res => resourceToRecord cfgCanonical "uuid-0" (some res))
      = .ok
        { id := some "3", lid := none, type := "people",
          props := [("firstName", PVal.attr (JVal.str "J"))] }
    ∧ (serialize cfgCanonical
        { id := some "", type := "people",
          props := [("firstName", EVal.attr (JVal.str "J"))] }
      >>= fun res => resourceToRecord cfgCanonical "uuid-0" (some res))
      = .ok
        { id := none, lid := none, type := "people",
          props := [("firstName", PVal.attr (JVal.str "J"))] } := by
  constructor
  · have h := C7_roundtrip_amended.1 cfgCanonical "uuid-0" "people" "3"
      [("firstName", JVal.str "J")] rfl (by decide) (by decide)
      (by intro p hp; simp only [List.mem_singleton] at hp; subst hp; rfl)
      (by intro p hp; simp only [List.mem_singleton] at hp; subst hp; rfl)
      (by intro p hp; simp only [List.mem_singleton] at hp; subst hp; rfl)
    exact h
  · have h := C7_roundtrip_amended.2 cfgCanonical "uuid-0" "people"
      [("firstName", JVal.str "J")] rfl rfl (by decide)
      (by intro p hp; simp only [List.mem_singleton] at hp; subst hp; rfl)
      (by intro p hp; simp only [List.mem_singleton] at hp; subst hp; rfl)
    exact h

/-! ## C1 — relationship references resolve by (type, id), type first

The decisive invariant: both identity maps are two-level (type then id), and
every address a map yields under `(t, i)` holds a record whose `type` is
`t`. Combined with the target-type filter of the population pass, every
populated reference points at a record of the relationship definition's
target type, whatever else shares its id string. -/

/-- The type of the record at a heap address. -/
def typeAt (heap : Heap) (a : Nat) : Option String :=
  (heap[a]?).map RecordObj.type

/-- Soundness of a two-level index against the heap: every address found
under `(t, i)` holds a record of type `t`. -/
def MapConsistent (map : TypeMap) (heap : Heap) : Prop :=
  ∀ (t : String) (i : Option String) (a : Nat),
    aget i ((aget t map).getD []) = some a → typeAt heap a = some t

theorem getElem?_lt_of_some {α : Type} {l : List α} {n : Nat} {a : α}
    (h : l[n]? = some a) : n < l.length := by
  by_contra hc
  rw [List.getElem?_eq_none (Nat.le_of_not_lt hc)] at h
  cases h

theorem typeAt_append {heap : Heap} (δ : Heap) {a : Nat} {t : String}
    (h : typeAt heap a = some t) : typeAt (heap ++ δ) a = some t := by
  unfold typeAt at h ⊢
  cases hga : heap[a]? with
  | none => rw [hga] at h; cases h
  | some obj =>
    rw [hga] at h
    rw [List.getElem?_append]
    simp [getElem?_lt_of_some hga, hga]
    simpa using h

theorem MapConsistent_append {map : TypeMap} {heap : Heap} (δ : Heap)
    (h : MapConsistent map heap) : MapConsistent map (heap ++ δ) :=
  fun t i a ha => typeAt_append δ (h t i a ha)

theorem MapConsistent_of_typesEq {map : TypeMap} {heap heap' : Heap}
    (ht : ∀ a, typeAt heap' a = typeAt heap a)
    (h : MapConsistent map heap) : MapConsistent map heap' :=
  fun t i a ha => (ht a).trans (h t i a ha)

theorem MapConsistent_nil (heap : Heap) : MapConsistent [] heap := by
  intro t i a ha
  simp [aget] at ha

theorem setRecord_consistent {map : TypeMap} {heap : Heap} {rt : String}
    {rid : Option String} {a : Nat}
    (hmc : MapConsistent map heap) (hty : typeAt heap a = some rt) :
    MapConsistent (setRecord map rt rid a) heap := by
  intro t i b hb
  unfold setRecord at hb
  by_cases ht : t = rt
  · subst ht
    rw [aget_aset_self] at hb
    simp only [Option.getD_some] at hb
    by_cases hi : i = rid
    · subst hi
      rw [aget_aset_self] at hb
      cases hb
      exact hty
    · rw [aget_aset_ne _ _ _ _ hi] at hb
      exact hmc t i b hb
  · rw [aget_aset_ne _ _ _ _ ht] at hb
    exact hmc t i b hb

/-- Materializing the included pool extends the heap and keeps its index
sound. -/
theorem buildIncluded_inv {cfg : JsonApiConfig} {gen : Nat → String} :
    ∀ {rs : List Resource} {heap : Heap} {map : TypeMap} {n : Nat}
      {heap' : Heap} {map' : TypeMap} {n' : Nat},
    buildIncluded cfg gen rs heap map n = .ok (heap', map', n') →
    MapConsistent map heap →
    (∃ δ, heap' = heap ++ δ) ∧ MapConsistent map' heap' := by
  intro rs
  induction rs with
  | nil =>
    intro heap map n heap' map' n' h hmc
    simp only [buildIncluded, Except.ok.injEq, Prod.mk.injEq] at h
    obtain ⟨h1, h2, _⟩ := h
    subst h1; subst h2
    exact ⟨⟨[], by simp⟩, hmc⟩
  | cons r rest ih =>
    intro heap map n heap' map' n' h hmc
    simp only [buildIncluded] at h
    cases hr : resourceToRecord cfg (gen n) (some r) with
    | error e => rw [hr] at h; cases h
    | ok obj =>
      rw [hr] at h
      simp only [okBind] at h
      have hlen : typeAt (heap ++ [obj]) heap.length = some obj.type := by
        unfold typeAt
        rw [List.getElem?_concat_length]
        rfl
      have hmc1 : MapConsistent (setRecord map obj.type obj.id heap.length) (heap ++ [obj]) :=
        setRecord_consistent (MapConsistent_append [obj] hmc) hlen
      obtain ⟨⟨δ, hδ⟩, hmc'⟩ := ih h hmc1
      refine ⟨⟨[obj] ++ δ, ?_⟩, hmc'⟩
      rw [hδ, List.append_assoc]

/-- Materializing the included pool produces attribute-only records. -/
theorem buildIncluded_all_attr {cfg : JsonApiConfig} {gen : Nat → String} :
    ∀ {rs : List Resource} {heap : Heap} {map : TypeMap} {n : Nat}
      {heap' : Heap} {map' : TypeMap} {n' : Nat},
    buildIncluded cfg gen rs heap map n = .ok (heap', map', n') →
    PropsAllAttr heap → PropsAllAttr heap' := by
  intro rs
  induction rs with
  | nil =>
    intro heap map n heap' map' n' h hh
    simp only [buildIncluded, Except.ok.injEq, Prod.mk.injEq] at h
    rw [← h.1]
    exact hh
  | cons r rest ih =>
    intro heap map n heap' map' n' h hh
    simp only [buildIncluded] at h
    cases hr : resourceToRecord cfg (gen n) (some r) with
    | error e => rw [hr] at h; cases h
    | ok obj =>
      rw [hr] at h
      simp only [okBind] at h
      refine ih h ?_
      intro o ho
      rcases List.mem_append.1 ho with h' | h'
      · exact hh o h'
      · rcases List.mem_singleton.1 h' with rfl
        exact resourceToRecord_all_attr hr

/-- Allocation only appends to the heap. -/
theorem allocRecords_ext {cfg : JsonApiConfig} {gen : Nat → String} :
    ∀ {rs : List (Option Resource)} {heap : Heap} {n : Nat}
      {heap' : Heap} {addrs : List Nat} {n' : Nat},
    allocRecords cfg gen rs heap n = .ok (heap', addrs, n') →
    ∃ δ, heap' = heap ++ δ := by
  intro rs
  induction rs with
  | nil =>
    intro heap n heap' addrs n' h
    simp only [allocRecords, Except.ok.injEq, Prod.mk.injEq] at h
    exact ⟨[], by rw [← h.1]; simp⟩
  | cons r rest ih =>
    intro heap n heap' addrs n' h
    simp only [allocRecords] at h
    cases hr : resourceToRecord cfg (gen n) r with
    | error e => rw [hr] at h; cases h
    | ok obj =>
      rw [hr] at h
      simp only [okBind] at h
      cases hrec : allocRecords cfg gen rest (heap ++ [obj]) (n + 1) with
      | error e => rw [hrec] at h; cases h
      | ok out =>
        rw [hrec] at h
        obtain ⟨h2, addrs2, n2⟩ := out
        simp only [okBind, Except.ok.injEq, Prod.mk.injEq] at h
        obtain ⟨δ, hδ⟩ := ih hrec
        refine ⟨[obj] ++ δ, ?_⟩
        rw [← h.1, hδ, List.append_assoc]

/-- Building the top-level records index keeps it sound: every stored
address holds the record whose type keys it. -/
theorem buildRecordsMap_consistent (heap : Heap) :
    ∀ (addrs : List Nat) (map : TypeMap),
    MapConsistent map heap →
    MapConsistent (buildRecordsMap heap addrs map) heap := by
  intro addrs
  induction addrs with
  | nil => intro map hmc; exact hmc
  | cons a rest ih =>
    intro map hmc
    simp only [buildRecordsMap]
    cases hga : heap[a]? with
    | none => exact ih map hmc
    | some obj =>
      refine ih _ (setRecord_consistent hmc ?_)
      unfold typeAt
      rw [hga]
      rfl

/-- Target-type soundness of one record property: a reference (or each
element of a reference list) stored under key `k` on a record of type `ty`
points at a record whose type is exactly the target type of the relationship
definition `(ty, k)`. Plain attributes and `undefined` are vacuously fine. -/
def PropTargetsOk (cfg : JsonApiConfig) (heap : Heap) (ty : String)
    (p : String × PVal) : Prop :=
  (∀ b, p.2 = PVal.ref b → ∃ rels rel,
      aget ty (relationshipDefinitions cfg) = some rels ∧ aget p.1 rels = some rel ∧
      typeAt heap b = some rel.type) ∧
  (∀ bs, p.2 = PVal.refs bs → ∃ rels rel,
      aget ty (relationshipDefinitions cfg) = some rels ∧ aget p.1 rels = some rel ∧
      ∀ b ∈ bs, typeAt heap b = some rel.type)

/-- Every property of every record in the heap is target-type sound. -/
def RelTargets (cfg : JsonApiConfig) (heap : Heap) : Prop :=
  ∀ obj ∈ heap, ∀ p ∈ obj.props, PropTargetsOk cfg heap obj.type p

theorem PropTargetsOk_of_typesEq {cfg : JsonApiConfig} {heap heap' : Heap}
    {ty : String} {p : String × PVal}
    (ht : ∀ a, typeAt heap' a = typeAt heap a)
    (h : PropTargetsOk cfg heap ty p) : PropTargetsOk cfg heap' ty p := by
  obtain ⟨h1, h2⟩ := h
  constructor
  · intro b hb
    obtain ⟨rels, rel, ha, hb', hc⟩ := h1 b hb
    exact ⟨rels, rel, ha, hb', (ht b).trans hc⟩
  · intro bs hbs
    obtain ⟨rels, rel, ha, hb', hc⟩ := h2 bs hbs
    exact ⟨rels, rel, ha, hb', fun b hb => (ht b).trans (hc b hb)⟩

/-- An attribute-only heap is trivially target-type sound. -/
theorem RelTargets_of_all_attr {cfg : JsonApiConfig} {heap : Heap}
    (h : PropsAllAttr heap) : RelTargets cfg heap := by
  intro obj hobj p hp
  obtain ⟨v, hv⟩ := h obj hobj p hp
  constructor
  · intro b hb; rw [hv] at hb; cases hb
  · intro bs hbs; rw [hv] at hbs; cases hbs

/-- `getRecord` answers only addresses holding a record of the queried
type. -/
theorem getRecord_sound {map : TypeMap} {heap : Heap} {t : String}
    {i : Option String} {a : Nat}
    (hmc : MapConsistent map heap) (h : getRecord map t i = .ok (some a)) :
    typeAt heap a = some t := by
  unfold getRecord at h
  cases i with
  | none => cases h
  | some s =>
    simp only [Except.ok.injEq] at h
    exact hmc t (some s) a h

/-- `getRecord(includedMap, d) || getRecord(recordsMap, d)` answers only
addresses holding a record of the identifier's type. -/
theorem lookupRid_sound {iM rM : TypeMap} {heap : Heap} {d : Rid} {a : Nat}
    (hI : MapConsistent iM heap) (hR : MapConsistent rM heap)
    (h : lookupRid iM rM d = .ok (some a)) :
    typeAt heap a = some d.type := by
  unfold lookupRid at h
  cases hgi : getRecord iM d.type d.id with
  | error e => rw [hgi] at h; cases h
  | ok x =>
    rw [hgi] at h
    simp only [okBind] at h
    cases x with
    | some b =>
      simp only [Except.ok.injEq, Option.some.injEq] at h
      subst h
      exact getRecord_sound hI hgi
    | none => exact getRecord_sound hR h

/-- Every resolved address in the mapped lookups came from some identifier
in the input list. -/
theorem mapLookupRids_sound {iM rM : TypeMap} :
    ∀ {ds : List Rid} {found : List (Option Nat)},
    mapLookupRids iM rM ds = .ok found →
    ∀ a, some a ∈ found → ∃ d ∈ ds, lookupRid iM rM d = .ok (some a) := by
  intro ds
  induction ds with
  | nil =>
    intro found h a ha
    simp only [mapLookupRids, Except.ok.injEq] at h
    rw [← h] at ha
    cases ha
  | cons d rest ih =>
    intro found h a ha
    simp only [mapLookupRids] at h
    cases hl : lookupRid iM rM d with
    | error e => rw [hl] at h; cases h
    | ok a? =>
      rw [hl] at h
      simp only [okBind] at h
      cases hrec : mapLookupRids iM rM rest with
      | error e => rw [hrec] at h; cases h
      | ok tail =>
        rw [hrec] at h
        simp only [okBind, Except.ok.injEq] at h
        rw [← h] at ha
        rcases List.mem_cons.1 ha with heq | hmem
        · exact ⟨d, List.mem_cons_self _ _, heq ▸ hl⟩
        · obtain ⟨d', hd', hld'⟩ := ih hrec a hmem
          exact ⟨d', List.mem_cons_of_mem _ hd', hld'⟩

/-- The survivors of the target-type filter have the target type. -/
theorem survivors_type {rel : Relationship} {rids : List (Option Rid)} :
    ∀ d ∈ rids.filterMap
      (fun d? => match d? with
        | some d => if d.type == rel.type then some d else none
        | none => none), d.type = rel.type := by
  intro d hd
  rcases List.mem_filterMap.1 hd with ⟨x, _, hx⟩
  cases x with
  | none => cases hx
  | some d' =>
    simp only at hx
    cases hbe : (d'.type == rel.type) with
    | true =>
      rw [hbe] at hx
      simp only [reduceIte, Option.some.injEq] at hx
      subst hx
      exact eq_of_beq hbe
    | false =>
      rw [hbe] at hx
      simp at hx

/-- Everything `relatedRecordsOf` resolves has the relationship definition's
target type. -/
theorem relatedRecordsOf_sound {iM rM : TypeMap} {heap : Heap}
    {rel : Relationship} {rids : List (Option Rid)} {bs : List Nat}
    (hI : MapConsistent iM heap) (hR : MapConsistent rM heap)
    (h : relatedRecordsOf iM rM rel rids = .ok bs) :
    ∀ b ∈ bs, typeAt heap b = some rel.type := by
  rw [show relatedRecordsOf iM rM rel rids
      = (mapLookupRids iM rM
          (rids.filterMap
            (fun d? => match d? with
              | some d => if d.type == rel.type then some d else none
              | none => none)) >>= fun found => .ok (found.filterMap id)) from rfl] at h
  cases hml : mapLookupRids iM rM
      (rids.filterMap
        (fun d? => match d? with
          | some d => if d.type == rel.type then some d else none
          | none => none)) with
  | error e => rw [hml] at h; cases h
  | ok found =>
    rw [hml] at h
    simp only [okBind, Except.ok.injEq] at h
    intro b hb
    rw [← h] at hb
    have : some b ∈ found := by
      rcases List.mem_filterMap.1 hb with ⟨x, hx, hxb⟩
      cases x with
      | none => cases hxb
      | some y => cases hxb; exact hx
    obtain ⟨d, hd, hld⟩ := mapLookupRids_sound hml b this
    have := lookupRid_sound hI hR hld
    rwa [survivors_type d hd] at this

/-- The in-place property assignment changes no record's type. -/
theorem storeRel_types (heap : Heap) (a : Nat) (nm : String) (value : PVal) :
    ∀ b, typeAt (storeRel heap a nm value) b = typeAt heap b := by
  unfold storeRel
  cases hga : heap[a]? with
  | none => intro b; rfl
  | some obj =>
    intro b
    unfold typeAt
    by_cases hba : b = a
    · subst hba
      rw [List.getElem?_set_eq_of_lt _ (getElem?_lt_of_some hga), hga]
      rfl
    · rw [List.getElem?_set_ne (fun he => hba he.symm)]

/-- Storing a target-type-sound value keeps the heap target-type sound. -/
theorem storeRel_RelTargets {cfg : JsonApiConfig} {heap : Heap} {a : Nat}
    {nm : String} {value : PVal} {tyR : String}
    (hty : typeAt heap a = some tyR)
    (hRT : RelTargets cfg heap)
    (hprop : PropTargetsOk cfg heap tyR (nm, value)) :
    RelTargets cfg (storeRel heap a nm value) := by
  have htypes := storeRel_types heap a nm value
  cases hga : heap[a]? with
  | none =>
    unfold storeRel
    rw [hga]
    exact hRT
  | some obj =>
    have hsr : storeRel heap a nm value
        = heap.set a { obj with props := aset nm value obj.props } := by
      unfold storeRel
      rw [hga]
    have hobjmem : obj ∈ heap := List.getElem?_mem hga
    have hobjty : obj.type = tyR := by
      unfold typeAt at hty
      rw [hga] at hty
      simpa using hty
    intro o ho p hp
    rw [hsr] at ho
    rcases List.mem_or_eq_of_mem_set ho with hmem | rfl
    · exact PropTargetsOk_of_typesEq htypes (hRT o hmem p hp)
    · rcases mem_aset nm value obj.props p hp with hmem | rfl
      · exact PropTargetsOk_of_typesEq htypes (hRT obj hobjmem p hmem)
      · refine PropTargetsOk_of_typesEq htypes ?_
        show PropTargetsOk cfg heap obj.type (nm, value)
        rw [hobjty]
        exact hprop

/-- One relationship-loop iteration preserves target-type soundness and
every record's type, when the owner at `a` has the type whose definitions
are `rels`. -/
theorem populateEntry_preserves {cfg : JsonApiConfig} {rM iM : TypeMap}
    {heap : Heap} {a : Nat} {rels : List (String × Relationship)}
    {name : String} {reldoc : RelData} {heap' : Heap} {tyR : String}
    (hI : MapConsistent iM heap) (hR : MapConsistent rM heap)
    (hty : typeAt heap a = some tyR)
    (hrels : aget tyR (relationshipDefinitions cfg) = some rels)
    (hRT : RelTargets cfg heap)
    (h : populateEntry cfg rM iM heap a rels name reldoc = .ok heap') :
    RelTargets cfg heap' ∧ (∀ b, typeAt heap' b = typeAt heap b) := by
  unfold populateEntry at h
  cases hrel : aget (normalize cfg name) rels with
  | none =>
    rw [hrel] at h
    simp only [Except.ok.injEq] at h
    subst h
    exact ⟨hRT, fun b => rfl⟩
  | some rel =>
    rw [hrel] at h
    simp only [] at h
    by_cases htr : reldoc.truthy = false
    · rw [if_pos htr] at h
      simp only [Except.ok.injEq] at h
      subst h
      exact ⟨hRT, fun b => rfl⟩
    · rw [if_neg htr] at h
      cases hcast : castRids rel reldoc with
      | error e => rw [hcast] at h; cases h
      | ok rids =>
        rw [hcast] at h
        simp only [okBind] at h
        cases hrr : relatedRecordsOf iM rM rel rids with
        | error e => rw [hrr] at h; cases h
        | ok relatedRecords =>
          rw [hrr] at h
          simp only [okBind, Except.ok.injEq] at h
          subst h
          have hbs := relatedRecordsOf_sound hI hR hrr
          refine ⟨storeRel_RelTargets hty hRT ?_, storeRel_types heap a _ _⟩
          constructor
          · intro b hb
            unfold relValue at hb
            cases hrtb : (rel.relationshipType == RelationshipType.HasMany) with
            | true =>
              rw [hrtb] at hb
              simp only [reduceIte] at hb
              cases hb
            | false =>
              rw [hrtb] at hb
              simp only [Bool.false_eq_true, if_false] at hb
              cases relatedRecords with
              | nil => cases hb
              | cons b0 rest =>
                simp only [PVal.ref.injEq] at hb
                subst hb
                exact ⟨rels, rel, hrels, hrel, hbs b0 (List.mem_cons_self _ _)⟩
          · intro bs hbsv
            unfold relValue at hbsv
            cases hrtb : (rel.relationshipType == RelationshipType.HasMany) with
            | true =>
              rw [hrtb] at hbsv
              simp only [reduceIte, PVal.refs.injEq] at hbsv
              subst hbsv
              exact ⟨rels, rel, hrels, hrel, hbs⟩
            | false =>
              rw [hrtb] at hbsv
              simp only [Bool.false_eq_true, if_false] at hbsv
              cases relatedRecords with
              | nil => cases hbsv
              | cons b0 rest => cases hbsv

/-- The relationship loop over all entries preserves target-type
soundness. -/
theorem populateEntries_preserves {cfg : JsonApiConfig} {rM iM : TypeMap}
    {rels : List (String × Relationship)} {tyR : String} :
    ∀ {entries : List (String × RelData)} {heap : Heap} {a : Nat} {heap' : Heap},
    populateEntries cfg rM iM heap a rels entries = .ok heap' →
    MapConsistent iM heap → MapConsistent rM heap →
    typeAt heap a = some tyR →
    aget tyR (relationshipDefinitions cfg) = some rels →
    RelTargets cfg heap →
    RelTargets cfg heap' ∧ (∀ b, typeAt heap' b = typeAt heap b) := by
  intro entries
  induction entries with
  | nil =>
    intro heap a heap' h _ _ _ _ hRT
    simp only [populateEntries, Except.ok.injEq] at h
    subst h
    exact ⟨hRT, fun b => rfl⟩
  | cons e rest ih =>
    intro heap a heap' h hI hR hty hrels hRT
    obtain ⟨name, reldoc⟩ := e
    simp only [populateEntries] at h
    cases hpe : populateEntry cfg rM iM heap a rels name reldoc with
    | error er => rw [hpe] at h; cases h
    | ok heap1 =>
      rw [hpe] at h
      simp only [okBind] at h
      obtain ⟨hRT1, htypes1⟩ := populateEntry_preserves hI hR hty hrels hRT hpe
      obtain ⟨hRT2, htypes2⟩ := ih h (MapConsistent_of_typesEq htypes1 hI)
        (MapConsistent_of_typesEq htypes1 hR) ((htypes1 a).trans hty) hrels hRT1
      exact ⟨hRT2, fun b => (htypes2 b).trans (htypes1 b)⟩

/-- `populateRelationships` preserves target-type soundness. -/
theorem populateRelationships_preserves {cfg : JsonApiConfig} {rM iM : TypeMap}
    {heap : Heap} {resource : Resource} {heap' : Heap}
    (hI : MapConsistent iM heap) (hR : MapConsistent rM heap)
    (hRT : RelTargets cfg heap)
    (h : populateRelationships cfg rM iM heap resource = .ok heap') :
    RelTargets cfg heap' ∧ (∀ b, typeAt heap' b = typeAt heap b) := by
  have main : ∀ (a : Nat), typeAt heap a = some resource.type →
      populateRelsAt cfg rM iM heap a resource = .ok heap' →
      RelTargets cfg heap' ∧ (∀ b, typeAt heap' b = typeAt heap b) := by
    intro a hty hm
    unfold populateRelsAt at hm
    cases hrr : resource.relationships with
    | none =>
      rw [hrr] at hm
      simp only [Except.ok.injEq] at hm
      subst hm
      exact ⟨hRT, fun b => rfl⟩
    | some rentries =>
      rw [hrr] at hm
      simp only [] at hm
      cases hrd : aget resource.type (relationshipDefinitions cfg) with
      | none =>
        rw [hrd] at hm
        simp only [Except.ok.injEq] at hm
        subst hm
        exact ⟨hRT, fun b => rfl⟩
      | some rels =>
        rw [hrd] at hm
        simp only [] at hm
        exact populateEntries_preserves hm hI hR hty hrd hRT
  unfold populateRelationships at h
  cases hg1 : getRecord rM resource.type resource.id with
  | error e => rw [hg1] at h; cases h
  | ok a1? =>
    rw [hg1] at h
    simp only [okBind] at h
    cases a1? with
    | some a =>
      simp only [purePure, okBind] at h
      exact main a (getRecord_sound hR hg1) h
    | none =>
      simp only [] at h
      cases hg2 : getRecord iM resource.type resource.id with
      | error e => rw [hg2] at h; cases h
      | ok a2? =>
        rw [hg2] at h
        simp only [okBind] at h
        cases a2? with
        | none => cases h
        | some a => exact main a (getRecord_sound hI hg2) h

/-- The population pass over a resource list preserves target-type
soundness. -/
theorem populateAll_preserves {cfg : JsonApiConfig} {rM iM : TypeMap} :
    ∀ {rs : List (Option Resource)} {heap heap' : Heap},
    populateAll cfg rM iM heap rs = .ok heap' →
    MapConsistent iM heap → MapConsistent rM heap → RelTargets cfg heap →
    RelTargets cfg heap' ∧ (∀ b, typeAt heap' b = typeAt heap b) := by
  intro rs
  induction rs with
  | nil =>
    intro heap heap' h _ _ hRT
    simp only [populateAll, Except.ok.injEq] at h
    subst h
    exact ⟨hRT, fun b => rfl⟩
  | cons r? rest ih =>
    intro heap heap' h hI hR hRT
    simp only [populateAll] at h
    cases r? with
    | none => cases h
    | some r =>
      simp only [] at h
      cases hpr : populateRelationships cfg rM iM heap r with
      | error e => rw [hpr] at h; cases h
      | ok heap1 =>
        rw [hpr] at h
        simp only [okBind] at h
        obtain ⟨hRT1, htypes1⟩ := populateRelationships_preserves hI hR hRT hpr
        obtain ⟨hRT2, htypes2⟩ := ih h (MapConsistent_of_typesEq htypes1 hI)
          (MapConsistent_of_typesEq htypes1 hR) hRT1
        exact ⟨hRT2, fun b => (htypes2 b).trans (htypes1 b)⟩

/-- **C1**: record identity during graph building is the pair (type, id).
For every document with an included pool — in particular one containing two
resources of different types sharing one id string — every relationship
reference that `resourcesToRecords` populates points at a record whose type
equals the relationship definition's target type: both identity maps are
two-level (type first, then id; `setRecord`/`getRecord`), each map answers
only addresses holding a record of the queried type (`MapConsistent`), and
the population pass filters identifiers to the target type before resolving
them, so an id-only collision across types cannot occur. -/
theorem C1_identity_is_type_and_id (cfg : JsonApiConfig) (gen : Nat → String)
    (resources : List (Option Resource)) (included : List Resource)
    (addrs : List Nat) (heap : Heap)
    (h : resourcesToRecords cfg gen resources (some included) = .ok (addrs, heap)) :
    RelTargets cfg heap := by
  simp only [resourcesToRecords] at h
  cases hbi : buildIncluded cfg gen included [] [] 0 with
  | error e => rw [hbi] at h; simp only [errorBind] at h; cases h
  | ok out1 =>
    obtain ⟨heap1, iMap, n1⟩ := out1
    rw [hbi] at h
    simp only [okBind] at h
    cases halloc : allocRecords cfg gen resources heap1 n1 with
    | error e => rw [halloc] at h; simp only [errorBind] at h; cases h
    | ok out2 =>
      obtain ⟨heap2, addrs2, n2⟩ := out2
      rw [halloc] at h
      simp only [okBind] at h
      cases hp1 : populateAll cfg (buildRecordsMap heap2 addrs2 []) iMap heap2 resources with
      | error e => rw [hp1] at h; simp only [errorBind] at h; cases h
      | ok heap3 =>
        rw [hp1] at h
        simp only [okBind] at h
        cases hp2 : populateAll cfg (buildRecordsMap heap2 addrs2 []) iMap heap3
            (included.map some) with
        | error e => rw [hp2] at h; simp only [errorBind] at h; cases h
        | ok heap4 =>
          rw [hp2] at h
          simp only [okBind, Except.ok.injEq, Prod.mk.injEq] at h
          obtain ⟨⟨δ1, hδ1⟩, hIc1⟩ := buildIncluded_inv hbi (MapConsistent_nil [])
          have hattr1 : PropsAllAttr heap1 :=
            buildIncluded_all_attr hbi (by intro o ho; cases ho)
          obtain ⟨δ2, hδ2⟩ := allocRecords_ext halloc
          have hIc2 : MapConsistent iMap heap2 := by
            rw [hδ2]; exact MapConsistent_append δ2 hIc1
          have hattr2 : PropsAllAttr heap2 := allocRecords_all_attr halloc hattr1
          have hRc2 : MapConsistent (buildRecordsMap heap2 addrs2 []) heap2 :=
            buildRecordsMap_consistent heap2 addrs2 [] (MapConsistent_nil heap2)
          have hRT2 : RelTargets cfg heap2 := RelTargets_of_all_attr hattr2
          obtain ⟨hRT3, ht3⟩ := populateAll_preserves hp1 hIc2 hRc2 hRT2
          obtain ⟨hRT4, _⟩ := populateAll_preserves hp2
            (MapConsistent_of_typesEq ht3 hIc2) (MapConsistent_of_typesEq ht3 hRc2) hRT3
          rw [← h.2]
          exact hRT4

/-- Article 1 whose `comments` linkage references id "7" of type
`comments` — while the included pool also holds a `people` resource with the
same id string "7". -/
def artSameId : Resource :=
  { id := some "1", type := "articles",
    attributes := [("title", JVal.str "T")],
    relationships := some [("comments", RelData.many [{ id := some "7", type := "comments" }])] }

/-- The included person with the clashing id string. -/
def personSameId : Resource :=
  { id := some "7", type := "people", attributes := [("firstName", JVal.str "P")] }

/-- The included comment that shares its id string with the person. -/
def commentSameId : Resource :=
  { id := some "7", type := "comments", attributes := [("body", JVal.str "B")] }

/-- **C1 witness**: the claim's own scenario — two included resources of
different types share the id string "7"; the article's `comments`
relationship resolves to address 1, the `comments`-typed record, not
address 0, the `people`-typed one — and the general theorem instantiates on
it. -/
theorem C1_identity_is_type_and_id_witness :
    resourcesToRecords cfgCanonical genCanonical [some artSameId]
        (some [personSameId, commentSameId])
      = .ok ([2],
        [ { id := some "7", type := "people",
            props := [("firstName", PVal.attr (JVal.str "P"))] },
          { id := some "7", type := "comments",
            props := [("body", PVal.attr (JVal.str "B"))] },
          { id := some "1", type := "articles",
            props := [("title", PVal.attr (JVal.str "T")),
                      ("comments", PVal.refs [1])] } ])
    ∧ RelTargets cfgCanonical
        [ { id := some "7", type := "people",
            props := [("firstName", PVal.attr (JVal.str "P"))] },
          { id := some "7", type := "comments",
            props := [("body", PVal.attr (JVal.str "B"))] },
          { id := some "1", type := "articles",
            props := [("title", PVal.attr (JVal.str "T")),
                      ("comments", PVal.refs [1])] } ] :=
  ⟨rfl, C1_identity_is_type_and_id cfgCanonical genCanonical [some artSameId]
    [personSameId, commentSameId] [2] _ rfl⟩

/-! ## C3 amended — what the decode actually does per linkage shape -/

/-- **C3 amended**: for an article resource with arbitrary attributes (none
named `author` or `comments`): a relationship entry with no `data` key at
all (links-only) leaves the record property unset — the key is absent, not
`null`, not an empty collection; a present `data: []` under a has-many
definition populates the property with an empty collection; but a present
`data: null` receives exactly the same do-not-populate treatment as absent
`data` — the `if (!reldoc.data) continue` guard conflates the two, against
the original claim. -/
theorem C3_links_only_amended (attrs : List (String × JVal))
    (hA : aget "author" (attrs.map (fun p => (p.1, PVal.attr p.2))) = none)
    (hC : aget "comments" (attrs.map (fun p => (p.1, PVal.attr p.2))) = none) :
    (resourcesToRecords cfgCanonical genCanonical
        [some { id := some "1", type := "articles", attributes := attrs,
                relationships := some [("author", RelData.absent)] }] (some [])
      = .ok ([0], [{ id := some "1", type := "articles",
                     props := attrs.map (fun p => (p.1, PVal.attr p.2)) }]))
      ∧ (resourcesToRecords cfgCanonical genCanonical
          [some { id := some "1", type := "articles", attributes := attrs,
                  relationships := some [("author", RelData.null)] }] (some [])
        = resourcesToRecords cfgCanonical genCanonical
            [some { id := some "1", type := "articles", attributes := attrs,
                    relationships := some [("author", RelData.absent)] }] (some []))
      ∧ (resourcesToRecords cfgCanonical genCanonical
          [some { id := some "1", type := "articles", attributes := attrs,
                  relationships := some [("comments", RelData.many [])] }] (some [])
        = .ok ([0], [{ id := some "1", type := "articles",
                       props := attrs.map (fun p => (p.1, PVal.attr p.2))
                         ++ [("comments", PVal.refs [])] }]))
      ∧ aget "author" (attrs.map (fun p => (p.1, PVal.attr p.2))) = none := by
  refine ⟨rfl, rfl, ?_, hA⟩
  have h3 : resourcesToRecords cfgCanonical genCanonical
      [some { id := some "1", type := "articles", attributes := attrs,
              relationships := some [("comments", RelData.many [])] }] (some [])
      = .ok ([0], [{ id := some "1", type := "articles",
                     props := aset "comments" (PVal.refs [])
                       (attrs.map (fun p => (p.1, PVal.attr p.2))) }]) := rfl
  rw [h3, aset_eq_append _ _ _ hC]

/-- **C3 amended witness**: the amended statement at a concrete attribute
list. -/
theorem C3_links_only_amended_witness :
    (resourcesToRecords cfgCanonical genCanonical
        [some { id := some "1", type := "articles",
                attributes := [("title", JVal.str "T")],
                relationships := some [("author", RelData.absent)] }] (some [])
      = .ok ([0], [{ id := some "1", type := "articles",
                     props := [("title", PVal.attr (JVal.str "T"))] }]))
      ∧ (resourcesToRecords cfgCanonical genCanonical
          [some { id := some "1", type := "articles",
                  attributes := [("title", JVal.str "T")],
                  relationships := some [("author", RelData.null)] }] (some [])
        = resourcesToRecords cfgCanonical genCanonical
            [some { id := some "1", type := "articles",
                    attributes := [("title", JVal.str "T")],
                    relationships := some [("author", RelData.absent)] }] (some []))
      ∧ (resourcesToRecords cfgCanonical genCanonical
          [some { id := some "1", type := "articles",
                  attributes := [("title", JVal.str "T")],
                  relationships := some [("comments", RelData.many [])] }] (some [])
        = .ok ([0], [{ id := some "1", type := "articles",
                       props := [("title", PVal.attr (JVal.str "T")),
                                 ("comments", PVal.refs [])] }]))
      ∧ aget "author" [("title", PVal.attr (JVal.str "T"))] = none :=
  C3_links_only_amended [("title", JVal.str "T")] rfl rfl

end JsonApiClient
